import Mathlib

/-!
Shallow embedding of the Minesweeper engine (`src/minesweeper.py`).

Modelling conventions:
* A Python cell value is either an `int` (0-8 in every reachable board) or the
  string `'*'`; this becomes the sum type `Cellval`.
* `self.board` is a Python dict whose key set is, for every board produced by
  `__init__`, `put_mines` or a successful `load_board`, exactly the rectangle
  `{(r,c) | 0 <= r < rows, 0 <= c < columns}`.  The dict is therefore embedded
  as a total function `cell : Int × Int → Cellval` together with the bounds
  test `Board.inBounds`, which translates every `(r,c) in self.board.keys()`
  membership test of the source.
* `self.uncovered` is a Python list with `append` and membership tests; it is
  embedded as a `List (Int × Int)`.
* Python exceptions become the `Exc` enumeration and fallible methods return
  `Except`.  For `load_board` and `put_mines` the error also carries the board
  state at the moment of the raise (the source raises before assigning any of
  its temporaries to `self`, and the embedding mirrors that), so that claims
  about the state after a failed call are statable.
* Python strings are embedded as `List Char`; `str.strip` and
  `str.split(' ')` are modelled by `pyStrip` and `pySplitSpace` below.
* String comparisons of the source such as `get_value(...) != '0'` and
  `value != '*'` are translated to comparisons of the underlying `Cellval`
  (`str` applied to an int is `"0"` exactly for the int 0 and is never `"*"`).
-/

namespace Minesweeper

/-- Value stored in one board cell: an adjacency count (an int in Python) or
the mine marker `'*'`. -/
inductive Cellval where
  | num : Int → Cellval
  | mine : Cellval
deriving DecidableEq

/-- The exception classes of the source, one constructor each. -/
inductive Exc where
  | SizeOutOfBoundException
  | ScatterException
  | BoardFormatException
  | DimensionsMismatchException
  | IllegalIndicesException
  | IllegalMoveException
deriving DecidableEq

/-- The `GameStatus` enumeration of the source. -/
inductive GameStatus where
  | NotStarted
  | InProgress
  | Win
  | Lose
deriving DecidableEq

/-- A `Board` object: dimensions, cell dict (see module comment), uncovered
list, and the `startState` flag. -/
structure Board where
  rows : Int
  columns : Int
  cell : Int × Int → Cellval
  uncovered : List (Int × Int)
  startState : Bool

/-- Membership of a coordinate in the dict key set, i.e. `(r,c) in
self.board.keys()` for a board whose keys are the full rectangle. -/
def Board.inBounds (b : Board) (p : Int × Int) : Bool :=
  decide (0 ≤ p.1) && decide (p.1 < b.rows) && decide (0 ≤ p.2) && decide (p.2 < b.columns)

theorem inBounds_iff (b : Board) (p : Int × Int) :
    b.inBounds p = true ↔ 0 ≤ p.1 ∧ p.1 < b.rows ∧ 0 ≤ p.2 ∧ p.2 < b.columns := by
  simp [Board.inBounds, and_assoc]

/-- The row-major list of cells `[(r,c) for r in range(rows) for c in
range(columns)]` built in `__init__` and `get_status`. -/
def cellsList (rows columns : Int) : List (Int × Int) :=
  (List.range rows.toNat).flatMap
    (fun r => (List.range columns.toNat).map (fun c => (Int.ofNat r, Int.ofNat c)))

theorem mem_cellsList {rows columns : Int} {p : Int × Int} :
    p ∈ cellsList rows columns ↔
      0 ≤ p.1 ∧ p.1 < rows ∧ 0 ≤ p.2 ∧ p.2 < columns := by
  rcases p with ⟨r, c⟩
  simp only [cellsList, List.mem_flatMap, List.mem_map, List.mem_range]
  constructor
  · rintro ⟨a, ha, d, hd, h⟩
    rw [Prod.ext_iff] at h
    obtain ⟨h1, h2⟩ := h
    simp only [Int.ofNat_eq_coe] at h1 h2
    subst h1
    subst h2
    refine ⟨?_, ?_, ?_, ?_⟩ <;> omega
  · rintro ⟨h1, h2, h3, h4⟩
    refine ⟨r.toNat, by omega, c.toNat, by omega, ?_⟩
    rw [Prod.ext_iff]
    constructor
    · simp only [Int.ofNat_eq_coe]; omega
    · simp only [Int.ofNat_eq_coe]; omega

theorem mem_cellsList_of_inBounds {b : Board} {p : Int × Int}
    (h : b.inBounds p = true) : p ∈ cellsList b.rows b.columns := by
  rw [mem_cellsList]; exact (inBounds_iff b p).1 h

theorem cellsList_nodup (rows columns : Int) : (cellsList rows columns).Nodup := by
  rw [cellsList, List.nodup_flatMap]
  constructor
  · intro a _
    refine List.Nodup.map ?_ (List.nodup_range _)
    intro x y hxy
    have h2 := congrArg Prod.snd hxy
    simpa using h2
  · refine (List.nodup_range _).imp ?_
    intro a d hab
    intro x hxa hxb
    simp only [List.mem_map] at hxa hxb
    obtain ⟨ca, _, rfl⟩ := hxa
    obtain ⟨cb, _, h⟩ := hxb
    have h1 := congrArg Prod.fst h
    simp only [Int.ofNat_eq_coe, Int.natCast_inj] at h1
    exact hab h1.symm

theorem cellsList_length (rows columns : Int) :
    (cellsList rows columns).length = rows.toNat * columns.toNat := by
  rw [cellsList, List.length_flatMap]
  have h : ∀ n : Nat, (List.map
      (List.length ∘ fun r => List.map (fun c => (Int.ofNat r, Int.ofNat c))
        (List.range columns.toNat)) (List.range n)).sum = n * columns.toNat := by
    intro n
    induction n with
    | zero => simp
    | succ k ih =>
      rw [List.range_succ, List.map_append, List.sum_append, ih]
      simp [Nat.succ_mul]
  exact h rows.toNat

/-- `Board.__init__`: bounds check, then an all-zero all-hidden board. -/
def Board.init (rows columns : Int) : Except Exc Board :=
  if rows < 1 ∨ 20 < rows ∨ columns < 2 ∨ 50 < columns then
    .error .SizeOutOfBoundException
  else
    .ok { rows := rows, columns := columns, cell := fun _ => .num 0,
          uncovered := [], startState := true }

/-- `Board.get_value`: bounds check, then the cell value (the source returns
`str(value)`; the embedding returns the value itself, rendered by `valStr`
where the one-character string matters). -/
def Board.get_value (b : Board) (row column : Int) : Except Exc Cellval :=
  if b.inBounds (row, column) then .ok (b.cell (row, column))
  else .error .IllegalIndicesException

/-- `Board.uncover`: bounds check, already-uncovered check, then append. -/
def Board.uncover (b : Board) (row column : Int) : Except Exc Board :=
  if ¬ b.inBounds (row, column) then .error .IllegalIndicesException
  else if (row, column) ∈ b.uncovered then .error .IllegalMoveException
  else .ok { b with uncovered := b.uncovered ++ [(row, column)] }

/-- The scan loop of `Game.get_status`: walk the cells row-major, return
`Lose` at the first uncovered mine, clear the `Win` flag at every hidden
non-mine cell. -/
def statusLoop (b : Board) : List (Int × Int) → Bool → GameStatus
  | [], win => if win then .Win else .InProgress
  | p :: ps, win =>
    if p ∈ b.uncovered ∧ b.cell p = .mine then .Lose
    else if p ∉ b.uncovered ∧ b.cell p ≠ .mine then statusLoop b ps false
    else statusLoop b ps win

/-- `Game.get_status` (a `Game` object is just its wrapped `Board`). -/
def Game.get_status (b : Board) : GameStatus :=
  if b.uncovered = [] then .NotStarted
  else statusLoop b (cellsList b.rows b.columns) true

theorem statusLoop_nil (b : Board) (win : Bool) :
    statusLoop b [] win = if win then .Win else .InProgress := rfl

theorem statusLoop_cons (b : Board) (p : Int × Int) (ps : List (Int × Int)) (win : Bool) :
    statusLoop b (p :: ps) win =
      if p ∈ b.uncovered ∧ b.cell p = .mine then .Lose
      else if p ∉ b.uncovered ∧ b.cell p ≠ .mine then statusLoop b ps false
      else statusLoop b ps win := rfl

theorem statusLoop_ne_notStarted (b : Board) :
    ∀ l win, statusLoop b l win ≠ .NotStarted := by
  intro l
  induction l with
  | nil => intro win; rw [statusLoop_nil]; cases win <;> simp
  | cons p ps ih =>
    intro win
    rw [statusLoop_cons]
    by_cases h1 : p ∈ b.uncovered ∧ b.cell p = .mine
    · rw [if_pos h1]; simp
    · rw [if_neg h1]
      by_cases h2 : p ∉ b.uncovered ∧ b.cell p ≠ .mine
      · rw [if_pos h2]; exact ih false
      · rw [if_neg h2]; exact ih win

theorem statusLoop_eq_lose_iff (b : Board) :
    ∀ l win, statusLoop b l win = .Lose ↔
      ∃ p ∈ l, p ∈ b.uncovered ∧ b.cell p = .mine := by
  intro l
  induction l with
  | nil => intro win; rw [statusLoop_nil]; cases win <;> simp
  | cons p ps ih =>
    intro win
    rw [statusLoop_cons]
    by_cases h1 : p ∈ b.uncovered ∧ b.cell p = .mine
    · rw [if_pos h1]
      exact ⟨fun _ => ⟨p, List.mem_cons_self p ps, h1⟩, fun _ => rfl⟩
    · rw [if_neg h1]
      have step : ∀ w : Bool, (statusLoop b ps w = .Lose ↔
          ∃ q ∈ p :: ps, q ∈ b.uncovered ∧ b.cell q = .mine) := by
        intro w
        rw [ih]
        constructor
        · rintro ⟨q, hq, hP⟩; exact ⟨q, List.mem_cons_of_mem _ hq, hP⟩
        · rintro ⟨q, hq, hP⟩
          rcases List.mem_cons.1 hq with rfl | hq
          · exact absurd hP h1
          · exact ⟨q, hq, hP⟩
      by_cases h2 : p ∉ b.uncovered ∧ b.cell p ≠ .mine
      · rw [if_pos h2]; exact step false
      · rw [if_neg h2]; exact step win

theorem statusLoop_eq_win_iff (b : Board) :
    ∀ l win, statusLoop b l win = .Win ↔
      win = true ∧ ∀ p ∈ l,
        (b.cell p = .mine → p ∉ b.uncovered) ∧ (b.cell p ≠ .mine → p ∈ b.uncovered) := by
  intro l
  induction l with
  | nil => intro win; rw [statusLoop_nil]; cases win <;> simp
  | cons p ps ih =>
    intro win
    rw [statusLoop_cons]
    by_cases h1 : p ∈ b.uncovered ∧ b.cell p = .mine
    · rw [if_pos h1]
      constructor
      · intro h; cases h
      · rintro ⟨-, hall⟩
        exact absurd h1.1 ((hall p (List.mem_cons_self p ps)).1 h1.2)
    · rw [if_neg h1]
      by_cases h2 : p ∉ b.uncovered ∧ b.cell p ≠ .mine
      · rw [if_pos h2, ih]
        constructor
        · rintro ⟨h, -⟩; cases h
        · rintro ⟨-, hall⟩
          exact absurd ((hall p (List.mem_cons_self p ps)).2 h2.2) h2.1
      · rw [if_neg h2, ih]
        constructor
        · rintro ⟨hw, hall⟩
          refine ⟨hw, fun q hq => ?_⟩
          rcases List.mem_cons.1 hq with rfl | hq
          · constructor
            · intro hm hu; exact h1 ⟨hu, hm⟩
            · intro hm; by_contra hu; exact h2 ⟨hu, hm⟩
          · exact hall q hq
        · rintro ⟨hw, hall⟩
          exact ⟨hw, fun q hq => hall q (List.mem_cons_of_mem _ hq)⟩

theorem statusLoop_cases (b : Board) :
    ∀ l win, statusLoop b l win = .Lose ∨ statusLoop b l win = .Win ∨
      statusLoop b l win = .InProgress := by
  intro l
  induction l with
  | nil => intro win; rw [statusLoop_nil]; cases win <;> simp
  | cons p ps ih =>
    intro win
    rw [statusLoop_cons]
    by_cases h1 : p ∈ b.uncovered ∧ b.cell p = .mine
    · rw [if_pos h1]; left; rfl
    · rw [if_neg h1]
      by_cases h2 : p ∉ b.uncovered ∧ b.cell p ≠ .mine
      · rw [if_pos h2]; exact ih false
      · rw [if_neg h2]; exact ih win

/-- C1. `get_status` returns `NotStarted` exactly when the uncovered list is
empty; otherwise it returns `Lose` iff some in-bounds uncovered cell is a
mine, `Win` iff every in-bounds mine is hidden and every in-bounds non-mine
cell is uncovered (so `Lose` beats `Win`), and `InProgress` in every
remaining case. -/
theorem C1_get_status_characterization (b : Board) :
    (Game.get_status b = .NotStarted ↔ b.uncovered = []) ∧
    (b.uncovered ≠ [] →
      ((Game.get_status b = .Lose ↔
          ∃ p ∈ cellsList b.rows b.columns, p ∈ b.uncovered ∧ b.cell p = .mine) ∧
       (Game.get_status b = .Win ↔
          (∀ p ∈ cellsList b.rows b.columns,
            (b.cell p = .mine → p ∉ b.uncovered) ∧
            (b.cell p ≠ .mine → p ∈ b.uncovered))) ∧
       (Game.get_status b = .InProgress ↔
          (¬ ∃ p ∈ cellsList b.rows b.columns, p ∈ b.uncovered ∧ b.cell p = .mine) ∧
          (¬ ∀ p ∈ cellsList b.rows b.columns,
            (b.cell p = .mine → p ∉ b.uncovered) ∧
            (b.cell p ≠ .mine → p ∈ b.uncovered))))) := by
  constructor
  · constructor
    · intro h
      by_contra hne
      rw [Game.get_status, if_neg hne] at h
      exact statusLoop_ne_notStarted b _ _ h
    · intro h; simp [Game.get_status, h]
  · intro hne
    rw [Game.get_status, if_neg hne]
    refine ⟨?_, ?_, ?_⟩
    · exact statusLoop_eq_lose_iff b _ _
    · rw [statusLoop_eq_win_iff]; simp
    · rcases statusLoop_cases b (cellsList b.rows b.columns) true with h | h | h
      · rw [h]
        constructor
        · intro hcontra; cases hcontra
        · intro hc
          exact absurd ((statusLoop_eq_lose_iff b _ true).1 h) hc.1
      · rw [h]
        constructor
        · intro hcontra; cases hcontra
        · intro hc
          exact absurd ((statusLoop_eq_win_iff b _ true).1 h).2 hc.2
      · rw [h]
        constructor
        · intro _
          constructor
          · intro hlose
            have hb := (statusLoop_eq_lose_iff b (cellsList b.rows b.columns) true).2 hlose
            rw [h] at hb; cases hb
          · intro hall
            have hb := (statusLoop_eq_win_iff b (cellsList b.rows b.columns) true).2 ⟨rfl, hall⟩
            rw [h] at hb; cases hb
        · intro _; rfl

/-- A concrete lost 1×2 board: mine at (0,0), uncovered. -/
def bLose : Board :=
  { rows := 1, columns := 2,
    cell := fun p => if p = (0, 0) then .mine else .num 1,
    uncovered := [(0, 0)], startState := false }

theorem C1_witness :
    bLose.uncovered ≠ [] ∧
    (Game.get_status bLose = .Lose ↔
      ∃ p ∈ cellsList bLose.rows bLose.columns,
        p ∈ bLose.uncovered ∧ bLose.cell p = .mine) :=
  ⟨by decide, ((C1_get_status_characterization bLose).2 (by decide)).1⟩

/-- C7. `Board(rows, columns)` raises `SizeOutOfBoundException` exactly when
rows is outside [1,20] or columns is outside [2,50]; on success every cell of
the rows×columns rectangle holds 0 and is hidden, the uncovered list is
empty, and `startState` is true. -/
theorem C7_init_characterization (rows columns : Int) :
    ((∃ e, Board.init rows columns = .error e) ↔
      (rows < 1 ∨ 20 < rows ∨ columns < 2 ∨ 50 < columns)) ∧
    (∀ e, Board.init rows columns = .error e → e = .SizeOutOfBoundException) ∧
    (∀ b, Board.init rows columns = .ok b →
      b.rows = rows ∧ b.columns = columns ∧
      (∀ p ∈ cellsList rows columns, b.cell p = .num 0 ∧ p ∉ b.uncovered) ∧
      b.uncovered = [] ∧ b.startState = true) := by
  by_cases h : rows < 1 ∨ 20 < rows ∨ columns < 2 ∨ 50 < columns
  · refine ⟨?_, ?_, ?_⟩
    · exact ⟨fun _ => h, fun _ => ⟨_, by unfold Board.init; rw [if_pos h]⟩⟩
    · intro e he
      unfold Board.init at he
      rw [if_pos h] at he
      cases he; rfl
    · intro b hb
      unfold Board.init at hb
      rw [if_pos h] at hb
      cases hb
  · refine ⟨?_, ?_, ?_⟩
    · constructor
      · rintro ⟨e, he⟩
        unfold Board.init at he
        rw [if_neg h] at he
        cases he
      · intro hc; exact absurd hc h
    · intro e he
      unfold Board.init at he
      rw [if_neg h] at he
      cases he
    · intro b hb
      unfold Board.init at hb
      rw [if_neg h] at hb
      cases hb
      exact ⟨rfl, rfl, fun p _ => ⟨rfl, by simp⟩, rfl, rfl⟩

theorem C7_witness :
    Board.init 1 2 =
      .ok { rows := 1, columns := 2, cell := fun _ => .num 0,
            uncovered := [], startState := true } ∧
    (({ rows := 1, columns := 2, cell := fun _ => .num 0,
        uncovered := [], startState := true } : Board).rows = 1 ∧
     ({ rows := 1, columns := 2, cell := fun _ => .num 0,
        uncovered := [], startState := true } : Board).columns = 2 ∧
     (∀ p ∈ cellsList 1 2,
        ({ rows := 1, columns := 2, cell := fun _ => .num 0,
           uncovered := [], startState := true } : Board).cell p = .num 0 ∧
        p ∉ ({ rows := 1, columns := 2, cell := fun _ => .num 0,
               uncovered := [], startState := true } : Board).uncovered) ∧
     ({ rows := 1, columns := 2, cell := fun _ => .num 0,
        uncovered := [], startState := true } : Board).uncovered = [] ∧
     ({ rows := 1, columns := 2, cell := fun _ => .num 0,
        uncovered := [], startState := true } : Board).startState = true) :=
  ⟨rfl, (C7_init_characterization 1 2).2.2 _ rfl⟩

/-- The 8-neighbor list built in `ripple_sequence`, upper neighbor first and
then clockwise (the two `+=` halves of the source concatenated). -/
def neighborsCW (r c : Int) : List (Int × Int) :=
  [(r - 1, c), (r - 1, c + 1), (r, c + 1), (r + 1, c + 1),
   (r + 1, c), (r + 1, c - 1), (r, c - 1), (r - 1, c - 1)]

/-- The inner neighbor loop of `ripple_sequence`: a neighbor passing
`condition1 and condition2` (in the grid, not already in the sequence, not
the origin, not uncovered) is appended to both the sequence and the queue. -/
def addNeighbors (b : Board) (origin : Int × Int) :
    List (Int × Int) → List (Int × Int) → List (Int × Int) →
      List (Int × Int) × List (Int × Int)
  | [], seq, queue => (seq, queue)
  | p :: ps, seq, queue =>
    if b.inBounds p = true ∧ p ∉ seq ∧ p ≠ origin ∧ p ∉ b.uncovered then
      addNeighbors b origin ps (seq ++ [p]) (queue ++ [p])
    else addNeighbors b origin ps seq queue

/-- The BFS loop of `ripple_sequence`. The source pops the queue head inside
`for i in range(len(queue))` nested in `while queue != []`; every iteration
of the inner loop pops exactly one cell and appends that cell's discoveries,
so the sequence of pop/process steps is the plain FIFO order modelled here.
The fuel argument bounds the number of pops; `rippleLoop_terminates` shows
the fuel supplied by `ripple_sequence` is never exhausted. -/
def rippleLoop (b : Board) (origin : Int × Int) :
    Nat → List (Int × Int) → List (Int × Int) →
      List (Int × Int) × List (Int × Int)
  | 0, queue, seq => (queue, seq)
  | _ + 1, [], seq => ([], seq)
  | fuel + 1, p :: qs, seq =>
    if b.cell p = .num 0 then
      let sq := addNeighbors b origin (neighborsCW p.1 p.2) seq qs
      rippleLoop b origin fuel sq.2 sq.1
    else rippleLoop b origin fuel qs seq

/-- Fuel that strictly dominates the total number of queue pops. -/
def rippleFuel (b : Board) : Nat := b.rows.toNat * b.columns.toNat + 2

/-- `Board.ripple_sequence`: bounds check (from the initial `get_value`),
empty answer for a nonzero cell, otherwise the BFS from a queue holding just
the origin.  The call builds only local lists, so it does not mutate the
board. -/
def Board.ripple_sequence (b : Board) (row column : Int) :
    Except Exc (List (Int × Int)) :=
  if ¬ b.inBounds (row, column) = true then .error .IllegalIndicesException
  else if b.cell (row, column) ≠ .num 0 then .ok []
  else .ok (rippleLoop b (row, column) (rippleFuel b) [(row, column)] []).2

theorem addNeighbors_nil (b : Board) (o : Int × Int) (seq queue : List (Int × Int)) :
    addNeighbors b o [] seq queue = (seq, queue) := rfl

theorem addNeighbors_cons (b : Board) (o p : Int × Int) (ps seq queue : List (Int × Int)) :
    addNeighbors b o (p :: ps) seq queue =
      if b.inBounds p = true ∧ p ∉ seq ∧ p ≠ o ∧ p ∉ b.uncovered then
        addNeighbors b o ps (seq ++ [p]) (queue ++ [p])
      else addNeighbors b o ps seq queue := rfl

theorem rippleLoop_zero (b : Board) (o : Int × Int) (queue seq : List (Int × Int)) :
    rippleLoop b o 0 queue seq = (queue, seq) := rfl

theorem rippleLoop_nilQueue (b : Board) (o : Int × Int) (k : Nat) (seq : List (Int × Int)) :
    rippleLoop b o (k + 1) [] seq = ([], seq) := rfl

theorem rippleLoop_cons (b : Board) (o p : Int × Int) (k : Nat)
    (qs seq : List (Int × Int)) :
    rippleLoop b o (k + 1) (p :: qs) seq =
      if b.cell p = .num 0 then
        rippleLoop b o k (addNeighbors b o (neighborsCW p.1 p.2) seq qs).2
          (addNeighbors b o (neighborsCW p.1 p.2) seq qs).1
      else rippleLoop b o k qs seq := rfl

theorem addNeighbors_spec (b : Board) (o : Int × Int) :
    ∀ ns seq queue, ∃ found,
      addNeighbors b o ns seq queue = (seq ++ found, queue ++ found) ∧
      (seq.Nodup → (seq ++ found).Nodup) ∧
      (∀ p ∈ found, b.inBounds p = true ∧ p ∉ seq ∧ p ≠ o ∧ p ∉ b.uncovered) := by
  intro ns
  induction ns with
  | nil =>
    intro seq queue
    exact ⟨[], by simp [addNeighbors_nil], fun h => by simpa using h, by simp⟩
  | cons p ps ih =>
    intro seq queue
    rw [addNeighbors_cons]
    by_cases h : b.inBounds p = true ∧ p ∉ seq ∧ p ≠ o ∧ p ∉ b.uncovered
    · rw [if_pos h]
      obtain ⟨found, heq, hnd, hprops⟩ := ih (seq ++ [p]) (queue ++ [p])
      refine ⟨p :: found, ?_, ?_, ?_⟩
      · rw [heq]; simp
      · intro hseq
        have h1 : (seq ++ [p]).Nodup := by
          rw [List.nodup_append]
          exact ⟨hseq, List.nodup_singleton p, by simpa using h.2.1⟩
        have h2 := hnd h1
        simpa using h2
      · intro q hq
        rcases List.mem_cons.1 hq with rfl | hq
        · exact h
        · have h3 := hprops q hq
          exact ⟨h3.1, fun hc => h3.2.1 (List.mem_append_left _ hc), h3.2.2.1, h3.2.2.2⟩
    · rw [if_neg h]
      obtain ⟨found, heq, hnd, hprops⟩ := ih seq queue
      exact ⟨found, heq, hnd, hprops⟩

theorem rippleLoop_props (b : Board) (o : Int × Int) :
    ∀ fuel queue seq, seq.Nodup →
      (∀ p ∈ seq, b.inBounds p = true ∧ p ∉ b.uncovered ∧ p ≠ o) →
      ((rippleLoop b o fuel queue seq).2.Nodup ∧
        ∀ p ∈ (rippleLoop b o fuel queue seq).2,
          b.inBounds p = true ∧ p ∉ b.uncovered ∧ p ≠ o) := by
  intro fuel
  induction fuel with
  | zero =>
    intro queue seq h1 h2
    rw [rippleLoop_zero]
    exact ⟨h1, h2⟩
  | succ k ih =>
    intro queue seq h1 h2
    match queue with
    | [] =>
      rw [rippleLoop_nilQueue]
      exact ⟨h1, h2⟩
    | p :: qs =>
      rw [rippleLoop_cons]
      by_cases hz : b.cell p = .num 0
      · rw [if_pos hz]
        obtain ⟨found, heq, hnd, hprops⟩ :=
          addNeighbors_spec b o (neighborsCW p.1 p.2) seq qs
        rw [heq]
        refine ih (qs ++ found) (seq ++ found) (hnd h1) ?_
        intro q hq
        rcases List.mem_append.1 hq with hq | hq
        · exact h2 q hq
        · have h3 := hprops q hq
          exact ⟨h3.1, h3.2.2.2, h3.2.2.1⟩
      · rw [if_neg hz]
        exact ih qs seq h1 h2

theorem nodup_inBounds_length_le (b : Board) (l : List (Int × Int))
    (hnd : l.Nodup) (h : ∀ p ∈ l, b.inBounds p = true) :
    l.length ≤ b.rows.toNat * b.columns.toNat := by
  have hsub : l ⊆ cellsList b.rows b.columns :=
    fun p hp => mem_cellsList_of_inBounds (h p hp)
  have h1 := List.Subperm.length_le (List.subperm_of_subset hnd hsub)
  rwa [cellsList_length] at h1

theorem rippleLoop_terminates (b : Board) (o : Int × Int) :
    ∀ fuel queue seq, seq.Nodup →
      (∀ p ∈ seq, b.inBounds p = true) →
      queue.length + (b.rows.toNat * b.columns.toNat - seq.length) < fuel →
      (rippleLoop b o fuel queue seq).1 = [] := by
  intro fuel
  induction fuel with
  | zero => intro queue seq _ _ h; omega
  | succ k ih =>
    intro queue seq h1 h2 hm
    match queue with
    | [] => rw [rippleLoop_nilQueue]
    | p :: qs =>
      rw [rippleLoop_cons]
      by_cases hz : b.cell p = .num 0
      · rw [if_pos hz]
        obtain ⟨found, heq, hnd, hprops⟩ :=
          addNeighbors_spec b o (neighborsCW p.1 p.2) seq qs
        rw [heq]
        have hnd2 : (seq ++ found).Nodup := hnd h1
        have hin2 : ∀ q ∈ seq ++ found, b.inBounds q = true := by
          intro q hq
          rcases List.mem_append.1 hq with hq | hq
          · exact h2 q hq
          · exact (hprops q hq).1
        refine ih (qs ++ found) (seq ++ found) hnd2 hin2 ?_
        have hlen := nodup_inBounds_length_le b (seq ++ found) hnd2 hin2
        rw [List.length_append] at hlen ⊢
        rw [List.length_append]
        simp only [List.length_cons] at hm
        omega
      · rw [if_neg hz]
        refine ih qs seq h1 h2 ?_
        simp only [List.length_cons] at hm
        omega

/-- C10. The BFS loop of `ripple_sequence` always terminates with an empty
queue on the fuel `ripple_sequence` supplies: every enqueue appends a cell
not yet in the result, the result holds only distinct in-grid cells, so the
pops are bounded by rows*columns and the queue empties. -/
theorem C10_rippleLoop_terminates (b : Board) (row column : Int) :
    (rippleLoop b (row, column) (rippleFuel b) [(row, column)] []).1 = [] := by
  apply rippleLoop_terminates
  · exact List.nodup_nil
  · intro p hp; cases hp
  · simp only [rippleFuel, List.length_cons, List.length_nil]
    omega

theorem rippleLoop_fuel_succ (b : Board) (o : Int × Int) :
    ∀ fuel queue seq, (rippleLoop b o fuel queue seq).1 = [] →
      rippleLoop b o (fuel + 1) queue seq = rippleLoop b o fuel queue seq := by
  intro fuel
  induction fuel with
  | zero =>
    intro queue seq h
    rw [rippleLoop_zero] at h ⊢
    simp only at h
    subst h
    rw [rippleLoop_nilQueue]
  | succ k ih =>
    intro queue seq h
    match queue with
    | [] => rw [rippleLoop_nilQueue, rippleLoop_nilQueue]
    | p :: qs =>
      rw [rippleLoop_cons] at h ⊢
      rw [rippleLoop_cons]
      by_cases hz : b.cell p = .num 0
      · rw [if_pos hz] at h ⊢
        rw [if_pos hz]
        exact ih _ _ h
      · rw [if_neg hz] at h ⊢
        rw [if_neg hz]
        exact ih _ _ h

/-- Modelled from the spec: the 8-neighbor ring of a cell, starting at the
upper neighbor and proceeding clockwise. -/
def specNeighborRing (r c : Int) : List (Int × Int) :=
  [(r - 1, c), (r - 1, c + 1), (r, c + 1), (r + 1, c + 1),
   (r + 1, c), (r + 1, c - 1), (r, c - 1), (r - 1, c - 1)]

/-- Modelled from the spec: walk a ring and append each neighbor passing the
inclusion filter (within bounds, not already in the result, not the origin,
not already uncovered) to the result and the queue. -/
def specAddRing (b : Board) (origin : Int × Int) :
    List (Int × Int) → List (Int × Int) → List (Int × Int) →
      List (Int × Int) × List (Int × Int)
  | [], res, queue => (res, queue)
  | p :: ps, res, queue =>
    if b.inBounds p = true ∧ p ∉ res ∧ p ≠ origin ∧ p ∉ b.uncovered then
      specAddRing b origin ps (res ++ [p]) (queue ++ [p])
    else specAddRing b origin ps res queue

/-- Modelled from the spec: breadth-first expansion — dequeue a cell and, if
its own value is 0, expand through its ring with the same inclusion filter,
until the queue empties.  The fuel bounds the pops and is never exhausted
(`rippleLoop_terminates`). -/
def specBFS (b : Board) (origin : Int × Int) :
    Nat → List (Int × Int) → List (Int × Int) →
      List (Int × Int) × List (Int × Int)
  | 0, queue, res => (queue, res)
  | _ + 1, [], res => ([], res)
  | fuel + 1, p :: qs, res =>
    if b.cell p = .num 0 then
      let rq := specAddRing b origin (specNeighborRing p.1 p.2) res qs
      specBFS b origin fuel rq.2 rq.1
    else specBFS b origin fuel qs res

/-- Modelled from the spec: the ripple sequence of a value-0 cell is the
breadth-first expansion seeded from the origin's 8 neighbors (filtered), in
BFS discovery order, clockwise from the top at each step. -/
def specRipple (b : Board) (row column : Int) : List (Int × Int) :=
  let seed := specAddRing b (row, column) (specNeighborRing row column) [] []
  (specBFS b (row, column) (rippleFuel b) seed.2 seed.1).2

theorem specAddRing_eq (b : Board) (o : Int × Int) :
    ∀ ns res queue, specAddRing b o ns res queue = addNeighbors b o ns res queue := by
  intro ns
  induction ns with
  | nil => intro res queue; rfl
  | cons p ps ih =>
    intro res queue
    show (if b.inBounds p = true ∧ p ∉ res ∧ p ≠ o ∧ p ∉ b.uncovered then
        specAddRing b o ps (res ++ [p]) (queue ++ [p])
      else specAddRing b o ps res queue) = _
    rw [addNeighbors_cons]
    by_cases h : b.inBounds p = true ∧ p ∉ res ∧ p ≠ o ∧ p ∉ b.uncovered
    · rw [if_pos h, if_pos h, ih]
    · rw [if_neg h, if_neg h, ih]

theorem specBFS_eq (b : Board) (o : Int × Int) :
    ∀ fuel queue res, specBFS b o fuel queue res = rippleLoop b o fuel queue res := by
  intro fuel
  induction fuel with
  | zero => intro queue res; rfl
  | succ k ih =>
    intro queue res
    match queue with
    | [] => rfl
    | p :: qs =>
      show (if b.cell p = .num 0 then
          specBFS b o k (specAddRing b o (specNeighborRing p.1 p.2) res qs).2
            (specAddRing b o (specNeighborRing p.1 p.2) res qs).1
        else specBFS b o k qs res) = _
      rw [rippleLoop_cons]
      by_cases hz : b.cell p = .num 0
      · rw [if_pos hz, if_pos hz, specAddRing_eq, ih]
        rfl
      · rw [if_neg hz, if_neg hz, ih]

/-- C3. For an in-bounds cell, `ripple_sequence` returns the empty sequence
whenever the cell's value is not 0, and for a value-0 cell it returns
exactly the spec's breadth-first expansion (`specRipple`): seeded from the 8
neighbors under the inclusion filter, expanding only through value-0 cells,
each cell at most once, in clockwise-from-top BFS discovery order.  The call
returns a list and leaves the board untouched. -/
theorem C3_ripple_sequence_correct (b : Board) (row column : Int)
    (h : b.inBounds (row, column) = true) :
    (b.cell (row, column) ≠ .num 0 → b.ripple_sequence row column = .ok []) ∧
    (b.cell (row, column) = .num 0 →
      b.ripple_sequence row column = .ok (specRipple b row column)) := by
  constructor
  · intro hnz
    unfold Board.ripple_sequence
    rw [if_neg (not_not_intro h), if_pos hnz]
  · intro hz
    unfold Board.ripple_sequence
    rw [if_neg (not_not_intro h), if_neg (not_not_intro hz)]
    have hone : rippleLoop b (row, column) (rippleFuel b) [(row, column)] [] =
        rippleLoop b (row, column) (b.rows.toNat * b.columns.toNat + 1)
          (addNeighbors b (row, column) (neighborsCW row column) [] []).2
          (addNeighbors b (row, column) (neighborsCW row column) [] []).1 := by
      rw [show rippleFuel b = b.rows.toNat * b.columns.toNat + 1 + 1 from rfl,
        rippleLoop_cons, if_pos hz]
    obtain ⟨found, heq, hnd, hprops⟩ :=
      addNeighbors_spec b (row, column) (neighborsCW row column) [] []
    simp only [List.nil_append] at heq
    have hfnd : found.Nodup := by simpa using hnd List.nodup_nil
    have hfin : ∀ q ∈ found, b.inBounds q = true := fun q hq => (hprops q hq).1
    have hterm : (rippleLoop b (row, column)
        (b.rows.toNat * b.columns.toNat + 1) found found).1 = [] := by
      apply rippleLoop_terminates b (row, column) _ found found hfnd hfin
      have := nodup_inBounds_length_le b found hfnd hfin
      omega
    have hspec : specRipple b row column =
        (rippleLoop b (row, column) (b.rows.toNat * b.columns.toNat + 1 + 1)
          found found).2 := by
      show (specBFS b (row, column) (rippleFuel b)
          (specAddRing b (row, column) (specNeighborRing row column) [] []).2
          (specAddRing b (row, column) (specNeighborRing row column) [] []).1).2 = _
      rw [specBFS_eq, specAddRing_eq]
      show (rippleLoop b (row, column) (rippleFuel b)
        (addNeighbors b (row, column) (neighborsCW row column) [] []).2
        (addNeighbors b (row, column) (neighborsCW row column) [] []).1).2 = _
      rw [heq]
      rfl
    rw [hone, hspec, rippleLoop_fuel_succ b (row, column) _ found found hterm, heq]

theorem C3_witness :
    (bLose.inBounds (0, 1) = true) ∧
    (bLose.cell (0, 1) ≠ .num 0 → bLose.ripple_sequence 0 1 = .ok []) ∧
    (bLose.cell (0, 1) = .num 0 →
      bLose.ripple_sequence 0 1 = .ok (specRipple bLose 0 1)) :=
  ⟨by decide, (C3_ripple_sequence_correct bLose 0 1 (by decide)).1,
    (C3_ripple_sequence_correct bLose 0 1 (by decide)).2⟩

/-- Python `str` of a cell value: decimal rendering of the int, `"*"` for
the mine marker. -/
def valStr : Cellval → List Char
  | .num n => (toString n).toList
  | .mine => ['*']

/-- The `for (r,c) in sequence: self.board.uncover(r,c)` loop of
`make_move`, propagating any exception. -/
def uncoverList (b : Board) : List (Int × Int) → Except Exc Board
  | [] => .ok b
  | p :: ps =>
    match b.uncover p.1 p.2 with
    | .error e => .error e
    | .ok b2 => uncoverList b2 ps

/-- `Game.make_move`: uncover the cell, read its value and, unless it is the
mine marker, uncover every cell of the ripple sequence in order; return the
value string.  The source compares `value != '*'`; `str(v) = "*"` iff `v` is
the mine marker, so the embedding compares the value. -/
def Game.make_move (b : Board) (row column : Int) : Except Exc (List Char × Board) :=
  match b.uncover row column with
  | .error e => .error e
  | .ok b1 =>
    match b1.get_value row column with
    | .error e => .error e
    | .ok v =>
      if v ≠ .mine then
        match b1.ripple_sequence row column with
        | .error e => .error e
        | .ok seq =>
          match uncoverList b1 seq with
          | .error e => .error e
          | .ok b2 => .ok (valStr v, b2)
      else .ok (valStr v, b1)

theorem uncover_ok (b : Board) (row column : Int)
    (hin : b.inBounds (row, column) = true) (hh : (row, column) ∉ b.uncovered) :
    b.uncover row column = .ok { b with uncovered := b.uncovered ++ [(row, column)] } := by
  unfold Board.uncover
  rw [if_neg (not_not_intro hin), if_neg hh]

theorem ripple_sequence_isOk (b : Board) (row column : Int)
    (hin : b.inBounds (row, column) = true) :
    ∃ seq, b.ripple_sequence row column = .ok seq := by
  unfold Board.ripple_sequence
  rw [if_neg (not_not_intro hin)]
  by_cases hz : b.cell (row, column) ≠ .num 0
  · rw [if_pos hz]; exact ⟨[], rfl⟩
  · rw [if_neg hz]; exact ⟨_, rfl⟩

theorem ripple_sequence_props (b : Board) (row column : Int)
    (seq : List (Int × Int)) (h : b.ripple_sequence row column = .ok seq) :
    seq.Nodup ∧ ∀ p ∈ seq, b.inBounds p = true ∧ p ∉ b.uncovered := by
  unfold Board.ripple_sequence at h
  by_cases hb : b.inBounds (row, column) = true
  · rw [if_neg (not_not_intro hb)] at h
    by_cases hz : b.cell (row, column) ≠ .num 0
    · rw [if_pos hz] at h
      cases h
      exact ⟨List.nodup_nil, by simp⟩
    · rw [if_neg hz] at h
      cases h
      have hp := rippleLoop_props b (row, column) (rippleFuel b)
        [(row, column)] [] List.nodup_nil (by simp)
      exact ⟨hp.1, fun p hpp => ⟨(hp.2 p hpp).1, (hp.2 p hpp).2.1⟩⟩
  · rw [if_pos hb] at h
    cases h

theorem uncoverList_nil (b : Board) : uncoverList b [] = .ok b := rfl

theorem uncoverList_cons (b : Board) (p : Int × Int) (ps : List (Int × Int)) :
    uncoverList b (p :: ps) =
      match b.uncover p.1 p.2 with
      | .error e => .error e
      | .ok b2 => uncoverList b2 ps := rfl

theorem uncoverList_ok :
    ∀ (seq : List (Int × Int)) (b : Board), seq.Nodup →
      (∀ p ∈ seq, b.inBounds p = true ∧ p ∉ b.uncovered) →
      uncoverList b seq = .ok { b with uncovered := b.uncovered ++ seq } := by
  intro seq
  induction seq with
  | nil =>
    intro b _ _
    rw [uncoverList_nil, List.append_nil]
  | cons p ps ih =>
    intro b hnd hp
    have h0 := hp p (List.mem_cons_self p ps)
    have huncov : b.uncover p.1 p.2 =
        .ok { b with uncovered := b.uncovered ++ [p] } :=
      uncover_ok b p.1 p.2 h0.1 h0.2
    rw [uncoverList_cons, huncov]
    show uncoverList { b with uncovered := b.uncovered ++ [p] } ps = _
    have hrec := ih { b with uncovered := b.uncovered ++ [p] }
      (List.Nodup.of_cons hnd) ?_
    · rw [hrec]
      have hl : (b.uncovered ++ [p]) ++ ps = b.uncovered ++ p :: ps := by simp
      simp only [hl]
    · intro q hq
      have hq0 := hp q (List.mem_cons_of_mem p hq)
      refine ⟨hq0.1, ?_⟩
      have hqp : q ≠ p := by
        intro hqq
        subst hqq
        exact (List.nodup_cons.1 hnd).1 hq
      simp only [List.mem_append, List.mem_singleton]
      rintro (hc | hc)
      · exact hq0.2 hc
      · exact hqp hc

/-- C8. During the ripple-propagation loop of `make_move` no per-cell
uncover call ever raises `IllegalMoveException` (or any exception): the
ripple sequence of the post-uncover board holds only distinct, in-grid,
still-hidden cells, each still hidden at the moment it is uncovered, so the
loop succeeds and simply appends the sequence. -/
theorem C8_ripple_uncover_calls_never_fail (b b1 : Board) (row column : Int)
    (seq : List (Int × Int))
    (_hunc : b.uncover row column = .ok b1)
    (hseq : b1.ripple_sequence row column = .ok seq) :
    uncoverList b1 seq = .ok { b1 with uncovered := b1.uncovered ++ seq } := by
  obtain ⟨hnd, hprops⟩ := ripple_sequence_props b1 row column seq hseq
  exact uncoverList_ok seq b1 hnd hprops

/-- A concrete 2×2 all-zero board. -/
def zb2 : Board :=
  { rows := 2, columns := 2, cell := fun _ => .num 0,
    uncovered := [], startState := false }

/-- The board `zb2` after uncovering (0,0). -/
def zb2u : Board := { zb2 with uncovered := [(0, 0)] }

theorem C8_witness :
    zb2.uncover 0 0 = .ok zb2u ∧
    zb2u.ripple_sequence 0 0 = .ok [(0, 1), (1, 1), (1, 0)] ∧
    uncoverList zb2u [(0, 1), (1, 1), (1, 0)] =
      .ok { zb2u with uncovered := zb2u.uncovered ++ [(0, 1), (1, 1), (1, 0)] } :=
  ⟨rfl, rfl, C8_ripple_uncover_calls_never_fail zb2 zb2u 0 0 _ rfl rfl⟩

theorem make_move_eq (b : Board) (row column : Int) (b1 : Board)
    (h : b.uncover row column = .ok b1) :
    Game.make_move b row column =
      match b1.get_value row column with
      | .error e => .error e
      | .ok v =>
        if v ≠ .mine then
          match b1.ripple_sequence row column with
          | .error e => .error e
          | .ok seq =>
            match uncoverList b1 seq with
            | .error e => .error e
            | .ok b2 => .ok (valStr v, b2)
        else .ok (valStr v, b1) := by
  unfold Game.make_move
  rw [h]

theorem make_move_eq2 (b : Board) (row column : Int) (b1 : Board) (v : Cellval)
    (h : b.uncover row column = .ok b1) (h2 : b1.get_value row column = .ok v) :
    Game.make_move b row column =
      if v ≠ .mine then
        match b1.ripple_sequence row column with
        | .error e => .error e
        | .ok seq =>
          match uncoverList b1 seq with
          | .error e => .error e
          | .ok b2 => .ok (valStr v, b2)
      else .ok (valStr v, b1) := by
  rw [make_move_eq b row column b1 h, h2]

theorem make_move_eq3 (b : Board) (row column : Int) (b1 : Board) (v : Cellval)
    (seq : List (Int × Int))
    (h : b.uncover row column = .ok b1) (h2 : b1.get_value row column = .ok v)
    (hv : v ≠ .mine) (h3 : b1.ripple_sequence row column = .ok seq) :
    Game.make_move b row column =
      match uncoverList b1 seq with
      | .error e => .error e
      | .ok b2 => .ok (valStr v, b2) := by
  rw [make_move_eq2 b row column b1 v h h2, if_pos hv, h3]

/-- C2. For an in-bounds hidden cell, `make_move` uncovers that cell; on a
mine it returns `"*"` with no further uncovering; otherwise it uncovers the
cells of the ripple sequence (computed on the board with the origin already
uncovered) in sequence order and returns the original cell's value string. -/
theorem C2_make_move_correct (b : Board) (row column : Int)
    (hin : b.inBounds (row, column) = true)
    (hhid : (row, column) ∉ b.uncovered) :
    (b.cell (row, column) = .mine →
      Game.make_move b row column =
        .ok (['*'], { b with uncovered := b.uncovered ++ [(row, column)] })) ∧
    (b.cell (row, column) ≠ .mine →
      Game.make_move b row column =
        (Board.ripple_sequence { b with uncovered := b.uncovered ++ [(row, column)] }
            row column).map
          (fun seq => (valStr (b.cell (row, column)),
            { b with uncovered := b.uncovered ++ (row, column) :: seq }))) := by
  have huncov := uncover_ok b row column hin hhid
  have hin2 : ({ b with uncovered := b.uncovered ++ [(row, column)] } : Board).inBounds
      (row, column) = true := hin
  have hgv : Board.get_value { b with uncovered := b.uncovered ++ [(row, column)] }
      row column = .ok (b.cell (row, column)) := by
    unfold Board.get_value
    rw [if_pos hin2]
  constructor
  · intro hm
    rw [make_move_eq2 b row column _ _ huncov (by rw [hgv, hm])]
    rw [if_neg (not_not_intro rfl)]
    rfl
  · intro hm
    obtain ⟨seq, hseq⟩ := ripple_sequence_isOk
      { b with uncovered := b.uncovered ++ [(row, column)] } row column hin
    have hprops := ripple_sequence_props _ row column seq hseq
    have huncl := uncoverList_ok seq _ hprops.1 hprops.2
    rw [make_move_eq3 b row column _ _ seq huncov hgv hm hseq, huncl, hseq]
    show Except.ok _ = Except.ok _
    have hl : (b.uncovered ++ [(row, column)]) ++ seq =
        b.uncovered ++ (row, column) :: seq := by simp
    simp only [hl]

theorem C2_witness :
    zb2.inBounds (0, 0) = true ∧ (0, 0) ∉ zb2.uncovered ∧
    (zb2.cell (0, 0) = .mine →
      Game.make_move zb2 0 0 =
        .ok (['*'], { zb2 with uncovered := zb2.uncovered ++ [(0, 0)] })) ∧
    (zb2.cell (0, 0) ≠ .mine →
      Game.make_move zb2 0 0 =
        (Board.ripple_sequence { zb2 with uncovered := zb2.uncovered ++ [(0, 0)] }
            0 0).map
          (fun seq => (valStr (zb2.cell (0, 0)),
            { zb2 with uncovered := zb2.uncovered ++ (0, 0) :: seq }))) :=
  ⟨by decide, by decide, (C2_make_move_correct zb2 0 0 (by decide) (by decide)).1,
    (C2_make_move_correct zb2 0 0 (by decide) (by decide)).2⟩

/-- The neighbor list built in `updateCell` (row-major order, unlike the
clockwise ring of `ripple_sequence`). -/
def neighborsRC (r c : Int) : List (Int × Int) :=
  [(r - 1, c - 1), (r - 1, c), (r - 1, c + 1), (r, c - 1),
   (r, c + 1), (r + 1, c - 1), (r + 1, c), (r + 1, c + 1)]

/-- The dict assignment `self.board[(r,c)] = v`. -/
def updateFn (f : Int × Int → Cellval) (p : Int × Int) (v : Cellval) :
    Int × Int → Cellval :=
  fun q => if q = p then v else f q

/-- `Board.updateCell`: store in (r,c) the number of in-grid neighbors
holding a mine. -/
def Board.updateCell (b : Board) (r c : Int) : Board :=
  { b with
    cell := (updateFn b.cell (r, c)
      (.num (Int.ofNat (((neighborsRC r c).filter (fun q => b.inBounds q)).filter
        (fun q => decide (b.cell q = .mine))).length))) }

theorem updateFn_self (f : Int × Int → Cellval) (p : Int × Int) (v : Cellval) :
    updateFn f p v p = v := by
  unfold updateFn
  rw [if_pos rfl]

theorem updateFn_other (f : Int × Int → Cellval) (p q : Int × Int) (v : Cellval)
    (h : q ≠ p) : updateFn f p v q = f q := by
  unfold updateFn
  rw [if_neg h]

/-- One round of the `while not scattered` rejection sampling in
`put_mines`: consume draws until one names a cell that is not yet a mine,
then plant a mine there.  `none` means the modelled finite supply of draws
ran out; a real random source draws forever, so theorems about success
condition on `some`. -/
def scatterOne (cell : Int × Int → Cellval) :
    List (Int × Int) → Option ((Int × Int → Cellval) × List (Int × Int))
  | [] => none
  | p :: ps =>
    if cell p ≠ .mine then some (updateFn cell p .mine, ps)
    else scatterOne cell ps

/-- The `for i in range(mines)` loop around the rejection sampling. -/
def scatterAll (cell : Int × Int → Cellval) (props : List (Int × Int)) :
    Nat → Option ((Int × Int → Cellval) × List (Int × Int))
  | 0 => some (cell, props)
  | k + 1 =>
    match scatterOne cell props with
    | none => none
    | some cp => scatterAll cp.1 cp.2 k

/-- The `for (r,c) in self.board.keys()` pass of `put_mines` rewriting every
non-mine cell with its neighbor-mine count.  The Python dict iteration order
is unspecified; row-major is one faithful choice, and the outcome is
order-independent because the pass never changes which cells are mines. -/
def updateAllCells (b : Board) : List (Int × Int) → Board
  | [] => b
  | p :: ps =>
    updateAllCells (if b.cell p ≠ .mine then b.updateCell p.1 p.2 else b) ps

/-- The tail of a successful `put_mines`: install the scattered cell dict,
run the `updateCell` pass over every key, and clear `startState`. -/
def scatterFinish (b : Board) (cf : Int × Int → Cellval) : Board :=
  let b2 := updateAllCells { b with cell := cf } (cellsList b.rows b.columns)
  { b2 with startState := false }

/-- `Board.put_mines`, with the stream of `random.randint` draws made an
explicit argument (each draw is an in-grid coordinate pair, which is what
`randint(0, rows-1)`/`randint(0, columns-1)` produce).  On failure the error
carries the board at the raise; the source has modified nothing by then. -/
def Board.put_mines (b : Board) (mines : Int) (props : List (Int × Int)) :
    Except (Exc × Board) (Option Board) :=
  if mines < 1 ∨ b.rows * b.columns - 1 < mines ∨ b.startState = false then
    .error (.ScatterException, b)
  else
    match scatterAll b.cell props mines.toNat with
    | none => .ok none
    | some cp => .ok (some (scatterFinish b cp.1))

/-- Number of mined cells on the grid. -/
def mineCount (b : Board) : Nat :=
  (cellsList b.rows b.columns).countP (fun p => decide (b.cell p = .mine))

/-- Number of mined in-grid 8-neighbors of a cell. -/
def minedNeighbors (b : Board) (r c : Int) : Nat :=
  (((neighborsRC r c).filter (fun q => b.inBounds q)).filter
    (fun q => decide (b.cell q = .mine))).length

theorem updateCell_cell_self (b : Board) (r c : Int) :
    (b.updateCell r c).cell (r, c) = .num (Int.ofNat (minedNeighbors b r c)) :=
  updateFn_self b.cell (r, c) _

theorem scatterOne_cons (cell : Int × Int → Cellval) (p : Int × Int)
    (ps : List (Int × Int)) :
    scatterOne cell (p :: ps) =
      if cell p ≠ .mine then some (updateFn cell p .mine, ps)
      else scatterOne cell ps := rfl

theorem scatterAll_succ (cell : Int × Int → Cellval) (props : List (Int × Int))
    (k : Nat) :
    scatterAll cell props (k + 1) =
      match scatterOne cell props with
      | none => none
      | some cp => scatterAll cp.1 cp.2 k := rfl

theorem updateAllCells_cons (b : Board) (p : Int × Int) (ps : List (Int × Int)) :
    updateAllCells b (p :: ps) =
      updateAllCells (if b.cell p ≠ .mine then b.updateCell p.1 p.2 else b) ps := rfl

theorem countP_update_mine (f : Int × Int → Cellval) (q : Int × Int) :
    ∀ l : List (Int × Int), l.Nodup → q ∈ l → f q ≠ .mine →
      l.countP (fun p => decide (updateFn f q .mine p = .mine)) =
      l.countP (fun p => decide (f p = .mine)) + 1 := by
  intro l
  induction l with
  | nil => intro _ h; cases h
  | cons a l ih =>
    intro hnd hq hfq
    simp only [List.countP_cons]
    rcases List.mem_cons.1 hq with heq | hq2
    · subst heq
      have hql : q ∉ l := (List.nodup_cons.1 hnd).1
      have htl : l.countP (fun p => decide (updateFn f q .mine p = .mine)) =
          l.countP (fun p => decide (f p = .mine)) := by
        apply List.countP_congr
        intro p hp
        have hpq : p ≠ q := fun hc => hql (hc ▸ hp)
        simp [updateFn, hpq]
      have h1 : updateFn f q .mine q = Cellval.mine := by simp [updateFn]
      rw [htl]
      simp [h1, hfq]
    · have ha : a ≠ q := fun hc => (List.nodup_cons.1 hnd).1 (hc ▸ hq2)
      have h1 : updateFn f q .mine a = f a := by simp [updateFn, ha]
      rw [ih (List.nodup_cons.1 hnd).2 hq2 hfq]
      simp only [h1]
      omega

theorem scatterOne_spec (cell : Int × Int → Cellval) :
    ∀ props cp, scatterOne cell props = some cp →
      ∃ q, q ∈ props ∧ cell q ≠ .mine ∧ cp.1 = updateFn cell q .mine ∧
        ∀ p ∈ cp.2, p ∈ props := by
  intro props
  induction props with
  | nil => intro cp h; cases h
  | cons p ps ih =>
    intro cp h
    rw [scatterOne_cons] at h
    by_cases hm : cell p ≠ .mine
    · rw [if_pos hm] at h
      cases h
      exact ⟨p, List.mem_cons_self p ps, hm, rfl,
        fun r hr => List.mem_cons_of_mem _ hr⟩
    · rw [if_neg hm] at h
      obtain ⟨q, hq1, hq2, hq3, hq4⟩ := ih cp h
      exact ⟨q, List.mem_cons_of_mem _ hq1, hq2, hq3,
        fun r hr => List.mem_cons_of_mem _ (hq4 r hr)⟩

theorem scatterAll_mineCount (l : List (Int × Int)) (hl : l.Nodup) :
    ∀ (k : Nat) (cell : Int × Int → Cellval) (props : List (Int × Int)) cp,
      (∀ p ∈ props, p ∈ l) →
      scatterAll cell props k = some cp →
      l.countP (fun p => decide (cp.1 p = .mine)) =
        l.countP (fun p => decide (cell p = .mine)) + k := by
  intro k
  induction k with
  | zero =>
    intro cell props cp _ h
    cases h
    simp
  | succ k ih =>
    intro cell props cp hsub h
    rw [scatterAll_succ] at h
    cases hso : scatterOne cell props with
    | none => rw [hso] at h; cases h
    | some cp2 =>
      rw [hso] at h
      obtain ⟨q, hq1, hq2, hq3, hq4⟩ := scatterOne_spec cell props cp2 hso
      have hrec := ih cp2.1 cp2.2 cp (fun p hp => hsub p (hq4 p hp)) h
      rw [hrec, hq3, countP_update_mine cell q l hl (hsub q hq1) hq2]
      omega

theorem updateCell_mine_iff (b : Board) (r c : Int) (h : b.cell (r, c) ≠ .mine) :
    ∀ q, ((b.updateCell r c).cell q = .mine ↔ b.cell q = .mine) := by
  intro q
  by_cases hq : q = (r, c)
  · subst hq
    simp only [Board.updateCell, updateFn, if_pos rfl]
    constructor
    · intro hc; cases hc
    · intro hc; exact absurd hc h
  · simp [Board.updateCell, updateFn, hq]

theorem minedNeighbors_congr (b b2 : Board) (hr : b2.rows = b.rows)
    (hc : b2.columns = b.columns)
    (hm : ∀ q, b2.cell q = .mine ↔ b.cell q = .mine) (r c : Int) :
    minedNeighbors b2 r c = minedNeighbors b r c := by
  unfold minedNeighbors
  have h1 : (neighborsRC r c).filter (fun q => b2.inBounds q) =
      (neighborsRC r c).filter (fun q => b.inBounds q) := by
    apply List.filter_congr
    intro q _
    simp [Board.inBounds, hr, hc]
  rw [h1]
  apply congrArg List.length
  apply List.filter_congr
  intro q _
  exact decide_eq_decide.mpr (hm q)

theorem updateAllCells_fields :
    ∀ (l : List (Int × Int)) (b : Board),
      (updateAllCells b l).rows = b.rows ∧ (updateAllCells b l).columns = b.columns ∧
      (updateAllCells b l).uncovered = b.uncovered ∧
      (updateAllCells b l).startState = b.startState ∧
      ∀ q, ((updateAllCells b l).cell q = .mine ↔ b.cell q = .mine) := by
  intro l
  induction l with
  | nil => intro b; exact ⟨rfl, rfl, rfl, rfl, fun _ => Iff.rfl⟩
  | cons p ps ih =>
    intro b
    rw [updateAllCells_cons]
    by_cases hm : b.cell p ≠ .mine
    · rw [if_pos hm]
      have hstep := ih (b.updateCell p.1 p.2)
      have hmp : b.cell (p.1, p.2) ≠ .mine := hm
      refine ⟨hstep.1, hstep.2.1, hstep.2.2.1, hstep.2.2.2.1, fun q => ?_⟩
      exact (hstep.2.2.2.2 q).trans (updateCell_mine_iff b p.1 p.2 hmp q)
    · rw [if_neg hm]
      exact ih b

theorem updateAllCells_not_mem :
    ∀ (l : List (Int × Int)) (b : Board) (q : Int × Int), q ∉ l →
      (updateAllCells b l).cell q = b.cell q := by
  intro l
  induction l with
  | nil => intro b q _; rfl
  | cons p ps ih =>
    intro b q hq
    rw [updateAllCells_cons]
    have hqp : q ≠ p := fun hc => hq (hc ▸ List.mem_cons_self p ps)
    have hqps : q ∉ ps := fun hc => hq (List.mem_cons_of_mem p hc)
    by_cases hm : b.cell p ≠ .mine
    · rw [if_pos hm, ih _ q hqps]
      exact updateFn_other b.cell (p.1, p.2) q _ hqp
    · rw [if_neg hm]
      exact ih b q hqps

theorem updateAllCells_value :
    ∀ (l : List (Int × Int)) (b : Board) (p : Int × Int), l.Nodup → p ∈ l →
      b.cell p ≠ .mine →
      (updateAllCells b l).cell p = .num (Int.ofNat (minedNeighbors b p.1 p.2)) := by
  intro l
  induction l with
  | nil => intro b p _ h; cases h
  | cons a l ih =>
    intro b p hnd hp hm
    rw [updateAllCells_cons]
    rcases List.mem_cons.1 hp with rfl | hp
    · rw [if_pos hm, updateAllCells_not_mem l _ p (List.nodup_cons.1 hnd).1]
      exact updateCell_cell_self b p.1 p.2
    · have hl : l.Nodup := (List.nodup_cons.1 hnd).2
      by_cases hma : b.cell a ≠ .mine
      · rw [if_pos hma]
        have hmiff := updateCell_mine_iff b a.1 a.2 hma
        have hm2 : (b.updateCell a.1 a.2).cell p ≠ .mine :=
          fun hc => hm ((hmiff p).1 hc)
        rw [ih (b.updateCell a.1 a.2) p hl hp hm2]
        have hmn := minedNeighbors_congr b (b.updateCell a.1 a.2) rfl rfl hmiff p.1 p.2
        rw [hmn]
      · rw [if_neg hma]
        exact ih b p hl hp hm

theorem scatterFinish_rows (b : Board) (cf : Int × Int → Cellval) :
    (scatterFinish b cf).rows = b.rows :=
  (updateAllCells_fields (cellsList b.rows b.columns) { b with cell := cf }).1

theorem scatterFinish_columns (b : Board) (cf : Int × Int → Cellval) :
    (scatterFinish b cf).columns = b.columns :=
  (updateAllCells_fields (cellsList b.rows b.columns) { b with cell := cf }).2.1

theorem scatterFinish_start (b : Board) (cf : Int × Int → Cellval) :
    (scatterFinish b cf).startState = false := rfl

theorem scatterFinish_cell (b : Board) (cf : Int × Int → Cellval) :
    (scatterFinish b cf).cell =
      (updateAllCells { b with cell := cf } (cellsList b.rows b.columns)).cell := rfl

theorem scatterFinish_mine_iff (b : Board) (cf : Int × Int → Cellval) (q : Int × Int) :
    ((scatterFinish b cf).cell q = .mine ↔ cf q = .mine) := by
  rw [scatterFinish_cell]
  exact (updateAllCells_fields (cellsList b.rows b.columns) { b with cell := cf }).2.2.2.2 q

/-- C5. On a board whose random draws are in-grid, `put_mines` raises
`ScatterException` iff the count is below 1, above rows*columns-1, or
`startState` is already false, and on failure the carried board is the
unmodified input; when the sampling completes, the result has exactly
`mines` mined cells (starting from a mine-free board), every non-mine cell
holds the exact count of its mined 8-neighbors, `startState` is false, and
any second call fails. -/
theorem C5_put_mines_correct (b : Board) (mines : Int) (props : List (Int × Int))
    (hprops : ∀ p ∈ props, b.inBounds p = true)
    (hfresh : mineCount b = 0) :
    ((∃ eb, b.put_mines mines props = .error eb) ↔
      (mines < 1 ∨ b.rows * b.columns - 1 < mines ∨ b.startState = false)) ∧
    (∀ eb, b.put_mines mines props = .error eb → eb = (.ScatterException, b)) ∧
    (∀ b2, b.put_mines mines props = .ok (some b2) →
      Int.ofNat (mineCount b2) = mines ∧
      (∀ p ∈ cellsList b.rows b.columns, b2.cell p ≠ .mine →
        b2.cell p = .num (Int.ofNat (minedNeighbors b2 p.1 p.2))) ∧
      b2.startState = false ∧
      (∀ m2 pr2, ∃ eb, b2.put_mines m2 pr2 = .error eb)) := by
  by_cases hcond : mines < 1 ∨ b.rows * b.columns - 1 < mines ∨ b.startState = false
  · refine ⟨⟨fun _ => hcond, fun _ => ?_⟩, fun eb heb => ?_, fun b2 hb2 => ?_⟩
    · exact ⟨(.ScatterException, b), by unfold Board.put_mines; rw [if_pos hcond]⟩
    · unfold Board.put_mines at heb
      rw [if_pos hcond] at heb
      cases heb; rfl
    · unfold Board.put_mines at hb2
      rw [if_pos hcond] at hb2
      cases hb2
  · refine ⟨⟨fun he => ?_, fun hc => absurd hc hcond⟩, fun eb heb => ?_, fun b2 hb2 => ?_⟩
    · obtain ⟨eb, heb⟩ := he
      unfold Board.put_mines at heb
      rw [if_neg hcond] at heb
      cases hsc : scatterAll b.cell props mines.toNat with
      | none => rw [hsc] at heb; cases heb
      | some cp => rw [hsc] at heb; cases heb
    · unfold Board.put_mines at heb
      rw [if_neg hcond] at heb
      cases hsc : scatterAll b.cell props mines.toNat with
      | none => rw [hsc] at heb; cases heb
      | some cp => rw [hsc] at heb; cases heb
    · unfold Board.put_mines at hb2
      rw [if_neg hcond] at hb2
      cases hsc : scatterAll b.cell props mines.toNat with
      | none => rw [hsc] at hb2; cases hb2
      | some cp =>
        rw [hsc] at hb2
        cases hb2
        have hsub : ∀ p ∈ props, p ∈ cellsList b.rows b.columns :=
          fun p hp => mem_cellsList_of_inBounds (hprops p hp)
        have hnd := cellsList_nodup b.rows b.columns
        have hcount := scatterAll_mineCount (cellsList b.rows b.columns) hnd
          mines.toNat b.cell props cp hsub hsc
        have hmines1 : 1 ≤ mines := by omega
        refine ⟨?_, ?_, scatterFinish_start b cp.1, ?_⟩
        · rw [mineCount, scatterFinish_rows, scatterFinish_columns]
          have hcp : (cellsList b.rows b.columns).countP
              (fun p => decide ((scatterFinish b cp.1).cell p = .mine)) =
              (cellsList b.rows b.columns).countP
                (fun p => decide (cp.1 p = .mine)) :=
            List.countP_congr (fun p _ => by
              simp only [decide_eq_true_eq]
              exact scatterFinish_mine_iff b cp.1 p)
          rw [hcp, hcount]
          rw [mineCount] at hfresh
          rw [hfresh]
          simp only [Int.ofNat_eq_coe]
          omega
        · intro p hp hpm
          have hm1 : ({ b with cell := cp.1 } : Board).cell p ≠ .mine :=
            fun hc => hpm ((scatterFinish_mine_iff b cp.1 p).2 hc)
          have hval := updateAllCells_value (cellsList b.rows b.columns)
            { b with cell := cp.1 } p hnd hp hm1
          have hcell : (scatterFinish b cp.1).cell p =
              (updateAllCells { b with cell := cp.1 }
                (cellsList b.rows b.columns)).cell p := by
            rw [scatterFinish_cell]
          rw [hcell, hval]
          have hcongr := minedNeighbors_congr { b with cell := cp.1 }
            (scatterFinish b cp.1) (scatterFinish_rows b cp.1)
            (scatterFinish_columns b cp.1)
            (fun q => scatterFinish_mine_iff b cp.1 q) p.1 p.2
          rw [hcongr]
        · intro m2 pr2
          refine ⟨(.ScatterException, scatterFinish b cp.1), ?_⟩
          unfold Board.put_mines
          rw [if_pos (Or.inr (Or.inr (scatterFinish_start b cp.1)))]

/-- A concrete fresh 1×2 board (the minimum legal size). -/
def mk1x2 : Board :=
  { rows := 1, columns := 2, cell := fun _ => .num 0,
    uncovered := [], startState := true }

theorem C5_witness :
    (∀ p ∈ [((0 : Int), (0 : Int))], mk1x2.inBounds p = true) ∧
    mineCount mk1x2 = 0 ∧
    (∀ b2, mk1x2.put_mines 1 [(0, 0)] = .ok (some b2) →
      Int.ofNat (mineCount b2) = 1 ∧
      (∀ p ∈ cellsList mk1x2.rows mk1x2.columns, b2.cell p ≠ .mine →
        b2.cell p = .num (Int.ofNat (minedNeighbors b2 p.1 p.2))) ∧
      b2.startState = false ∧
      (∀ m2 pr2, ∃ eb, b2.put_mines m2 pr2 = .error eb)) :=
  ⟨by decide, by decide,
    (C5_put_mines_correct mk1x2 1 [(0, 0)] (by decide) (by decide)).2.2⟩

/-- Python `str.strip`: drop whitespace at both ends (strings are embedded
as char lists). -/
def pyStrip (s : List Char) : List Char :=
  ((s.dropWhile Char.isWhitespace).reverse.dropWhile Char.isWhitespace).reverse

/-- Python `str.split(' ')`: cut at every single space, keeping empty
pieces (so `"a b ".split` gives `["a","b",""]`). -/
def pySplitSpace : List Char → List (List Char)
  | [] => [[]]
  | ch :: cs =>
    if ch = ' ' then [] :: pySplitSpace cs
    else
      match pySplitSpace cs with
      | [] => [[ch]]
      | t :: ts => (ch :: t) :: ts

/-- The `legalValues` list of `load_board`. -/
def legalValues : List Char :=
  ['0', '1', '2', '3', '4', '5', '6', '7', '8', '*']

/-- The `legalStates` list of `load_board`. -/
def legalStates : List Char := ['H', 'S']

/-- Python `int` applied to one digit character. -/
def pyIntOfDigit (ch : Char) : Int := Int.ofNat (ch.toNat - '0'.toNat)

/-- The value stored by `load_board` for a legal token character: the mine
marker for `'*'`, otherwise the parsed digit. -/
def tokenVal (ch : Char) : Cellval :=
  if ch = '*' then .mine else .num (pyIntOfDigit ch)

/-- The inner `for c in range(len(pairs))` loop of `load_board` over one
row's tokens: reject any token that is not a legal 2-character pair, record
each cell value in the new dict (keys are distinct, so an append-only
association list models `dict.update`) and each 'S' coordinate in the new
uncovered list. -/
def parseRow (r : Nat) :
    List (List Char) → Nat → List ((Int × Int) × Cellval) → List (Int × Int) →
      Except Exc (List ((Int × Int) × Cellval) × List (Int × Int))
  | [], _, acc, unc => .ok (acc, unc)
  | t :: ts, cIdx, acc, unc =>
    match t with
    | [x, y] =>
      if x ∉ legalValues ∨ y ∉ legalStates then .error .BoardFormatException
      else
        parseRow r ts (cIdx + 1)
          (acc ++ [((Int.ofNat r, Int.ofNat cIdx), tokenVal x)])
          (if y = 'S' then unc ++ [(Int.ofNat r, Int.ofNat cIdx)] else unc)
    | _ => .error .BoardFormatException

/-- The outer `for r in range(len(lines))` loop of `load_board`, carrying
the `dimensionsError` flag. -/
def parseRows (columns : Int) :
    List (List Char) → Nat → Bool → List ((Int × Int) × Cellval) →
      List (Int × Int) →
      Except Exc (Bool × List ((Int × Int) × Cellval) × List (Int × Int))
  | [], _, dimErr, acc, unc => .ok (dimErr, acc, unc)
  | line :: rest, r, dimErr, acc, unc =>
    match parseRow r (pySplitSpace line) 0 acc unc with
    | .error e => .error e
    | .ok au =>
      parseRows columns rest (r + 1)
        (dimErr || decide (Int.ofNat (pySplitSpace line).length ≠ columns))
        au.1 au.2

/-- The first line of `load_board`:
`[line.strip() for line in lines if line.strip() != '']`. -/
def processLines (input : List (List Char)) : List (List Char) :=
  (input.map pyStrip).filter (fun l => decide (l ≠ []))

/-- Lookup in the freshly parsed dict.  The parsed keys are distinct and, on
a successful load, cover exactly the in-bounds rectangle, so the default
branch is never reached through the bounds-checked accessors. -/
def assocCell (acc : List ((Int × Int) × Cellval)) : Int × Int → Cellval :=
  fun p =>
    match acc.lookup p with
    | some v => v
    | none => .num 0

/-- `Board.load_board` on a list of input lines.  The error carries the
board at the raise; the source assigns `self.board`/`self.uncovered` only
after every check has passed, so every raise carries the input board. -/
def Board.load_board (b : Board) (input : List (List Char)) :
    Except (Exc × Board) Board :=
  if processLines input = [] then .error (.BoardFormatException, b)
  else
    match parseRows b.columns (processLines input) 0
        (decide (Int.ofNat (processLines input).length ≠ b.rows)) [] [] with
    | .error e => .error (e, b)
    | .ok dau =>
      if dau.1 then .error (.DimensionsMismatchException, b)
      else .ok { b with cell := assocCell dau.2.1, uncovered := dau.2.2 }

/-- The hidden/uncovered letter written by `save_board`. -/
def stateChar (b : Board) (r c : Int) : Char :=
  if (r, c) ∈ b.uncovered then 'S' else 'H'

/-- One body line written by `save_board`: `str(value)+state+' '` for each
cell of the row, then a newline. -/
def saveRow (b : Board) (r : Int) : List Char :=
  ((List.range b.columns.toNat).flatMap
    (fun c => valStr (b.cell (r, Int.ofNat c)) ++ [stateChar b r (Int.ofNat c), ' ']))
    ++ ['\n']

/-- The body lines written by `save_board` (the rows/columns header lines
are consumed by the caller before `load_board` sees the body). -/
def Board.saveBody (b : Board) : List (List Char) :=
  (List.range b.rows.toNat).map (fun r => saveRow b (Int.ofNat r))

/-- C9. Whenever `load_board` raises — either exception, at any of its raise
sites — the board is exactly as before the call: the implementation builds
the new dict and uncovered list in temporaries and installs them only after
all checks pass. -/
theorem C9_load_board_error_preserves_board (b : Board)
    (input : List (List Char)) (e : Exc) (b2 : Board)
    (h : b.load_board input = .error (e, b2)) : b2 = b := by
  unfold Board.load_board at h
  by_cases h0 : processLines input = []
  · rw [if_pos h0] at h
    cases h; rfl
  · rw [if_neg h0] at h
    cases hp : parseRows b.columns (processLines input) 0
        (decide (Int.ofNat (processLines input).length ≠ b.rows)) [] [] with
    | error e2 =>
      rw [hp] at h
      cases h; rfl
    | ok dau =>
      rw [hp] at h
      dsimp only at h
      by_cases hd : dau.1 = true
      · rw [if_pos hd] at h
        cases h; rfl
      · rw [if_neg hd] at h
        cases h

theorem C9_witness :
    bLose.load_board [] = .error (.BoardFormatException, bLose) ∧ bLose = bLose :=
  ⟨rfl, C9_load_board_error_preserves_board bLose [] .BoardFormatException bLose rfl⟩

/-- A token passes the per-token checks of `load_board`: exactly two
characters, value among `legalValues`, state among `legalStates`. -/
def legalTok : List Char → Bool
  | [x, y] => decide (x ∈ legalValues) && decide (y ∈ legalStates)
  | _ => false

theorem parseRow_nil (r : Nat) (cIdx : Nat) (acc : List ((Int × Int) × Cellval))
    (unc : List (Int × Int)) : parseRow r [] cIdx acc unc = .ok (acc, unc) := rfl

theorem parseRow_cons2 (r : Nat) (x y : Char) (ts : List (List Char)) (cIdx : Nat)
    (acc : List ((Int × Int) × Cellval)) (unc : List (Int × Int)) :
    parseRow r ([x, y] :: ts) cIdx acc unc =
      if x ∉ legalValues ∨ y ∉ legalStates then .error .BoardFormatException
      else
        parseRow r ts (cIdx + 1)
          (acc ++ [((Int.ofNat r, Int.ofNat cIdx), tokenVal x)])
          (if y = 'S' then unc ++ [(Int.ofNat r, Int.ofNat cIdx)] else unc) := rfl

theorem parseRow_spec (r : Nat) :
    ∀ (ts : List (List Char)) (cIdx : Nat) acc unc,
      ((∃ e, parseRow r ts cIdx acc unc = .error e) ↔
        ∃ t ∈ ts, legalTok t = false) ∧
      (∀ e, parseRow r ts cIdx acc unc = .error e → e = .BoardFormatException) := by
  intro ts
  induction ts with
  | nil =>
    intro cIdx acc unc
    refine ⟨⟨?_, ?_⟩, ?_⟩
    · rintro ⟨e, he⟩
      rw [parseRow_nil] at he
      cases he
    · rintro ⟨t, ht, -⟩
      cases ht
    · intro e he
      rw [parseRow_nil] at he
      cases he
  | cons t ts ih =>
    intro cIdx acc unc
    match t with
    | [] =>
      refine ⟨⟨fun _ => ⟨[], List.mem_cons_self _ _, rfl⟩, fun _ => ⟨_, rfl⟩⟩,
        fun e he => ?_⟩
      cases he; rfl
    | [x] =>
      refine ⟨⟨fun _ => ⟨[x], List.mem_cons_self _ _, rfl⟩, fun _ => ⟨_, rfl⟩⟩,
        fun e he => ?_⟩
      cases he; rfl
    | x :: y :: z :: zs =>
      refine ⟨⟨fun _ => ⟨x :: y :: z :: zs, List.mem_cons_self _ _, rfl⟩,
        fun _ => ⟨_, rfl⟩⟩, fun e he => ?_⟩
      cases he; rfl
    | [x, y] =>
      rw [parseRow_cons2]
      by_cases hleg : x ∉ legalValues ∨ y ∉ legalStates
      · rw [if_pos hleg]
        have hfalse : legalTok [x, y] = false := by
          rcases hleg with h | h <;> simp [legalTok, h]
        refine ⟨⟨fun _ => ⟨[x, y], List.mem_cons_self _ _, hfalse⟩,
          fun _ => ⟨_, rfl⟩⟩, fun e he => ?_⟩
        cases he; rfl
      · rw [if_neg hleg]
        push_neg at hleg
        have htrue : legalTok [x, y] = true := by
          simp [legalTok, hleg.1, hleg.2]
        obtain ⟨ihiff, iherr⟩ := ih (cIdx + 1)
          (acc ++ [((Int.ofNat r, Int.ofNat cIdx), tokenVal x)])
          (if y = 'S' then unc ++ [(Int.ofNat r, Int.ofNat cIdx)] else unc)
        refine ⟨⟨?_, ?_⟩, iherr⟩
        · intro he
          obtain ⟨t2, ht2, hbad⟩ := ihiff.1 he
          exact ⟨t2, List.mem_cons_of_mem _ ht2, hbad⟩
        · rintro ⟨t2, ht2, hbad⟩
          rcases List.mem_cons.1 ht2 with rfl | ht2
          · rw [htrue] at hbad
            cases hbad
          · exact ihiff.2 ⟨t2, ht2, hbad⟩

theorem parseRows_cons (columns : Int) (line : List Char) (rest : List (List Char))
    (r : Nat) (dimErr : Bool) (acc : List ((Int × Int) × Cellval))
    (unc : List (Int × Int)) :
    parseRows columns (line :: rest) r dimErr acc unc =
      match parseRow r (pySplitSpace line) 0 acc unc with
      | .error e => .error e
      | .ok au =>
        parseRows columns rest (r + 1)
          (dimErr || decide (Int.ofNat (pySplitSpace line).length ≠ columns))
          au.1 au.2 := rfl

theorem parseRows_spec (columns : Int) :
    ∀ (lines : List (List Char)) (r : Nat) (dimErr : Bool) acc unc,
      ((∃ e, parseRows columns lines r dimErr acc unc = .error e) ↔
        ∃ line ∈ lines, ∃ t ∈ pySplitSpace line, legalTok t = false) ∧
      (∀ e, parseRows columns lines r dimErr acc unc = .error e →
        e = .BoardFormatException) ∧
      (∀ dau, parseRows columns lines r dimErr acc unc = .ok dau →
        (dau.1 = true ↔ (dimErr = true ∨
          ∃ line ∈ lines, Int.ofNat (pySplitSpace line).length ≠ columns))) := by
  intro lines
  induction lines with
  | nil =>
    intro r dimErr acc unc
    refine ⟨⟨?_, ?_⟩, ?_, ?_⟩
    · rintro ⟨e, he⟩; cases he
    · rintro ⟨line, hl, -⟩; cases hl
    · intro e he; cases he
    · intro dau hdau
      cases hdau
      simp
  | cons line rest ih =>
    intro r dimErr acc unc
    rw [parseRows_cons]
    cases hpr : parseRow r (pySplitSpace line) 0 acc unc with
    | error e =>
      obtain ⟨priff, prerr⟩ := parseRow_spec r (pySplitSpace line) 0 acc unc
      refine ⟨⟨?_, fun _ => ⟨e, rfl⟩⟩, ?_, ?_⟩
      · intro _
        obtain ⟨t, ht, hbad⟩ := priff.1 ⟨e, hpr⟩
        exact ⟨line, List.mem_cons_self _ _, t, ht, hbad⟩
      · intro e2 he2
        cases he2
        exact prerr e hpr
      · intro dau hdau
        cases hdau
    | ok au =>
      obtain ⟨priff, -⟩ := parseRow_spec r (pySplitSpace line) 0 acc unc
      have hnone : ¬ ∃ t ∈ pySplitSpace line, legalTok t = false := by
        intro hc
        obtain ⟨e, he⟩ := priff.2 hc
        rw [hpr] at he
        cases he
      obtain ⟨ihiff, iherr, ihok⟩ := ih (r + 1)
        (dimErr || decide (Int.ofNat (pySplitSpace line).length ≠ columns)) au.1 au.2
      refine ⟨⟨?_, ?_⟩, iherr, ?_⟩
      · intro he
        obtain ⟨line2, hl2, t, ht, hbad⟩ := ihiff.1 he
        exact ⟨line2, List.mem_cons_of_mem _ hl2, t, ht, hbad⟩
      · rintro ⟨line2, hl2, t, ht, hbad⟩
        rcases List.mem_cons.1 hl2 with rfl | hl2
        · exact absurd ⟨t, ht, hbad⟩ hnone
        · exact ihiff.2 ⟨line2, hl2, t, ht, hbad⟩
      · intro dau hdau
        rw [ihok dau hdau]
        simp only [Bool.or_eq_true, decide_eq_true_eq, List.mem_cons]
        constructor
        · rintro ((hd | hd) | ⟨line2, hl2, hd⟩)
          · exact Or.inl hd
          · exact Or.inr ⟨line, Or.inl rfl, hd⟩
          · exact Or.inr ⟨line2, Or.inr hl2, hd⟩
        · rintro (hd | ⟨line2, hl2 | hl2, hd⟩)
          · exact Or.inl (Or.inl hd)
          · subst hl2
            exact Or.inl (Or.inr hd)
          · exact Or.inr ⟨line2, hl2, hd⟩

/-- C6. `load_board` raises `BoardFormatException` exactly when, after
discarding blank lines, no lines remain or some token of some remaining line
is not a legal 2-character value+state pair; it raises
`DimensionsMismatchException` exactly when every token is well-formed (and
some line remains) but the line count differs from `rows` or some line's
token count differs from `columns` — so when both failure conditions hold,
`BoardFormatException` wins. -/
theorem C6_load_board_error_characterization (b : Board)
    (input : List (List Char)) :
    ((∃ b2, b.load_board input = .error (.BoardFormatException, b2)) ↔
      (processLines input = [] ∨
        ∃ line ∈ processLines input, ∃ t ∈ pySplitSpace line,
          legalTok t = false)) ∧
    ((∃ b2, b.load_board input = .error (.DimensionsMismatchException, b2)) ↔
      ((processLines input ≠ [] ∧
        ∀ line ∈ processLines input, ∀ t ∈ pySplitSpace line,
          legalTok t = true) ∧
       (Int.ofNat (processLines input).length ≠ b.rows ∨
        ∃ line ∈ processLines input,
          Int.ofNat (pySplitSpace line).length ≠ b.columns))) := by
  unfold Board.load_board
  by_cases h0 : processLines input = []
  · rw [if_pos h0]
    constructor
    · exact ⟨fun _ => Or.inl h0, fun _ => ⟨b, rfl⟩⟩
    · constructor
      · rintro ⟨b2, hb2⟩
        cases hb2
      · rintro ⟨⟨hne, -⟩, -⟩
        exact absurd h0 hne
  · rw [if_neg h0]
    obtain ⟨priff, prerr, prok⟩ := parseRows_spec b.columns (processLines input) 0
      (decide (Int.ofNat (processLines input).length ≠ b.rows)) [] []
    cases hpr : parseRows b.columns (processLines input) 0
        (decide (Int.ofNat (processLines input).length ≠ b.rows)) [] [] with
    | error e =>
      have heq : e = .BoardFormatException := prerr e hpr
      subst heq
      have hbad := priff.1 ⟨_, hpr⟩
      constructor
      · exact ⟨fun _ => Or.inr hbad, fun _ => ⟨b, rfl⟩⟩
      · constructor
        · rintro ⟨b2, hb2⟩
          cases hb2
        · rintro ⟨⟨-, hall⟩, -⟩
          obtain ⟨line, hl, t, ht, hfalse⟩ := hbad
          rw [hall line hl t ht] at hfalse
          cases hfalse
    | ok dau =>
      have hnobad : ¬ ∃ line ∈ processLines input, ∃ t ∈ pySplitSpace line,
          legalTok t = false := by
        intro hc
        obtain ⟨e, he⟩ := priff.2 hc
        rw [hpr] at he
        cases he
      have hall : ∀ line ∈ processLines input, ∀ t ∈ pySplitSpace line,
          legalTok t = true := by
        intro line hl t ht
        by_contra hc
        exact hnobad ⟨line, hl, t, ht, by
          cases hb : legalTok t
          · rfl
          · exact absurd hb hc⟩
      have hdim := prok dau hpr
      dsimp only
      by_cases hd : dau.1 = true
      · rw [if_pos hd]
        constructor
        · constructor
          · rintro ⟨b2, hb2⟩
            cases hb2
          · rintro (hc | hc)
            · exact absurd hc h0
            · exact absurd hc hnobad
        · constructor
          · intro _
            refine ⟨⟨h0, hall⟩, ?_⟩
            have hcond := hdim.1 hd
            rcases hcond with hcond | hcond
            · exact Or.inl (of_decide_eq_true hcond)
            · exact Or.inr hcond
          · intro _
            exact ⟨b, rfl⟩
      · rw [if_neg hd]
        constructor
        · constructor
          · rintro ⟨b2, hb2⟩
            cases hb2
          · rintro (hc | hc)
            · exact absurd hc h0
            · exact absurd hc hnobad
        · constructor
          · rintro ⟨b2, hb2⟩
            cases hb2
          · rintro ⟨-, hcond⟩
            exfalso
            apply hd
            apply hdim.2
            rcases hcond with hcond | hcond
            · exact Or.inl (decide_eq_true hcond)
            · exact Or.inr hcond

/-- A cell value as it appears on every reachable board: the mine marker or
a count between 0 and 8. -/
def valOK : Cellval → Bool
  | .num n => decide (0 ≤ n) && decide (n ≤ 8)
  | .mine => true

theorem valOK_char (v : Cellval) (h : valOK v = true) :
    ∃ ch, valStr v = [ch] ∧ ch ∈ legalValues ∧ tokenVal ch = v := by
  cases v with
  | mine => exact ⟨'*', rfl, by decide, by decide⟩
  | num n =>
    have h1 : 0 ≤ n ∧ n ≤ 8 := by simpa [valOK] using h
    obtain ⟨h1, h2⟩ := h1
    interval_cases n <;> exact ⟨_, rfl, by decide, by decide⟩

theorem legalValues_chars : ∀ ch ∈ legalValues, ch.isWhitespace = false ∧ ch ≠ ' ' := by
  decide

theorem legalStates_chars : ∀ ch ∈ legalStates, ch.isWhitespace = false ∧ ch ≠ ' ' := by
  decide

theorem pySplitSpace_cons (ch : Char) (cs : List Char) :
    pySplitSpace (ch :: cs) =
      if ch = ' ' then [] :: pySplitSpace cs
      else
        match pySplitSpace cs with
        | [] => [[ch]]
        | t :: ts => (ch :: t) :: ts := rfl

theorem pySplitSpace_no_space : ∀ t : List Char, ' ' ∉ t → pySplitSpace t = [t] := by
  intro t
  induction t with
  | nil => intro _; rfl
  | cons ch cs ih =>
    intro h
    have hch : ch ≠ ' ' := fun hc => h (hc ▸ List.mem_cons_self ch cs)
    rw [pySplitSpace_cons, if_neg hch, ih (fun hc => h (List.mem_cons_of_mem _ hc))]

theorem pySplitSpace_append_space : ∀ (t s : List Char), ' ' ∉ t →
    pySplitSpace (t ++ ' ' :: s) = t :: pySplitSpace s := by
  intro t
  induction t with
  | nil =>
    intro s _
    show pySplitSpace (' ' :: s) = [] :: pySplitSpace s
    rw [pySplitSpace_cons, if_pos rfl]
  | cons ch cs ih =>
    intro s h
    have hch : ch ≠ ' ' := fun hc => h (hc ▸ List.mem_cons_self ch cs)
    have hrest := ih s (fun hc => h (List.mem_cons_of_mem _ hc))
    show pySplitSpace (ch :: (cs ++ ' ' :: s)) = _
    rw [pySplitSpace_cons, if_neg hch, hrest]

theorem flat_tokens_eq (t : List Char) (ts : List (List Char)) :
    (t :: ts).flatMap (fun u => u ++ [' ']) =
      (t ++ ts.flatMap (fun u => ' ' :: u)) ++ [' '] := by
  induction ts generalizing t with
  | nil => simp
  | cons u us ih =>
    rw [List.flatMap_cons, ih u]
    simp [List.flatMap_cons, List.append_assoc]

theorem pySplitSpace_tokens : ∀ (ts : List (List Char)) (t : List Char),
    ' ' ∉ t → (∀ u ∈ ts, ' ' ∉ u) →
    pySplitSpace (t ++ ts.flatMap (fun u => ' ' :: u)) = t :: ts := by
  intro ts
  induction ts with
  | nil =>
    intro t h _
    simp only [List.flatMap_nil, List.append_nil]
    exact pySplitSpace_no_space t h
  | cons u us ih =>
    intro t ht hts
    rw [List.flatMap_cons]
    have hshape : (' ' :: u) ++ us.flatMap (fun w => ' ' :: w) =
        ' ' :: (u ++ us.flatMap (fun w => ' ' :: w)) := rfl
    rw [hshape, pySplitSpace_append_space t _ ht,
      ih u (hts u (List.mem_cons_self u us))
        (fun w hw => hts w (List.mem_cons_of_mem _ hw))]

theorem dropWhile_append_all (p : Char → Bool) :
    ∀ (l1 l2 : List Char), (∀ x ∈ l1, p x = true) →
      (l1 ++ l2).dropWhile p = l2.dropWhile p := by
  intro l1
  induction l1 with
  | nil => intro l2 _; rfl
  | cons a l ih =>
    intro l2 h
    show List.dropWhile p (a :: (l ++ l2)) = _
    rw [List.dropWhile_cons, if_pos (h a (List.mem_cons_self a l)),
      ih l2 (fun x hx => h x (List.mem_cons_of_mem _ hx))]

theorem pyStrip_token_row (v : Char) (s2 t : List Char) (z : Char) (zs : List Char)
    (hv : v.isWhitespace = false)
    (ht : ∀ ch ∈ t, ch.isWhitespace = true)
    (hrev : (v :: s2).reverse = z :: zs) (hz : z.isWhitespace = false) :
    pyStrip ((v :: s2) ++ t) = v :: s2 := by
  unfold pyStrip
  have h1 : ((v :: s2) ++ t).dropWhile Char.isWhitespace = (v :: s2) ++ t := by
    show List.dropWhile _ (v :: (s2 ++ t)) = _
    rw [List.dropWhile_cons, if_neg (by simp [hv])]
    rfl
  rw [h1, List.reverse_append,
    dropWhile_append_all _ t.reverse _ (fun x hx => ht x (List.mem_reverse.1 hx)),
    hrev, List.dropWhile_cons, if_neg (by simp [hz]), ← hrev, List.reverse_reverse]

theorem tokens_reverse_head :
    ∀ (ts : List (List Char)) (v st : Char),
      (∀ u ∈ ts, ∃ vu su, u = [vu, su] ∧ su.isWhitespace = false) →
      st.isWhitespace = false →
      ∃ z zs, ([v, st] ++ ts.flatMap (fun u => ' ' :: u)).reverse = z :: zs ∧
        z.isWhitespace = false := by
  intro ts
  induction ts with
  | nil =>
    intro v st _ hst
    exact ⟨st, [v], rfl, hst⟩
  | cons u us ih =>
    intro v st hts hst
    obtain ⟨vu, su, rfl, hsu⟩ := hts u (List.mem_cons_self u us)
    obtain ⟨z, zs, hrev, hz⟩ :=
      ih vu su (fun w hw => hts w (List.mem_cons_of_mem _ hw)) hsu
    refine ⟨z, (zs ++ [' ']) ++ [st, v], ?_, hz⟩
    have hshape : ([vu, su] :: us).flatMap (fun w => ' ' :: w) =
        ' ' :: ([vu, su] ++ us.flatMap (fun w => ' ' :: w)) := rfl
    rw [hshape]
    have hstep : ([v, st] ++ (' ' :: ([vu, su] ++ us.flatMap (fun w => ' ' :: w)))).reverse
        = (([vu, su] ++ us.flatMap (fun w => ' ' :: w)).reverse ++ [' ']) ++ [st, v] := by
      rw [List.reverse_append, List.reverse_cons]
      rfl
    rw [hstep, hrev]
    simp [List.cons_append, List.append_assoc]

theorem row_tokens_roundtrip (t : List Char) (ts : List (List Char))
    (h : ∀ u ∈ t :: ts, ∃ v s, u = [v, s] ∧ v ∈ legalValues ∧ s ∈ legalStates) :
    pyStrip ((t :: ts).flatMap (fun u => u ++ [' ']) ++ ['\n']) =
      t ++ ts.flatMap (fun u => ' ' :: u) ∧
    pySplitSpace (t ++ ts.flatMap (fun u => ' ' :: u)) = t :: ts ∧
    t ++ ts.flatMap (fun u => ' ' :: u) ≠ [] := by
  obtain ⟨v, s, rfl, hv, hs⟩ := h t (List.mem_cons_self t ts)
  have hvc := legalValues_chars v hv
  have hsc := legalStates_chars s hs
  have htshape : ∀ u ∈ ts, ∃ vu su, u = [vu, su] ∧ su.isWhitespace = false := by
    intro u hu
    obtain ⟨vu, su, rfl, hvu, hsu⟩ := h u (List.mem_cons_of_mem _ hu)
    exact ⟨vu, su, rfl, (legalStates_chars su hsu).1⟩
  have htsp : ∀ u ∈ ts, ' ' ∉ u := by
    intro u hu hc
    obtain ⟨vu, su, rfl, hvu, hsu⟩ := h u (List.mem_cons_of_mem _ hu)
    rcases List.mem_cons.1 hc with heq | hc2
    · exact (legalValues_chars vu hvu).2 heq.symm
    · rcases List.mem_cons.1 hc2 with heq | hc3
      · exact (legalStates_chars su hsu).2 heq.symm
      · cases hc3
  have htsp0 : ' ' ∉ [v, s] := by
    intro hc
    rcases List.mem_cons.1 hc with heq | hc2
    · exact hvc.2 heq.symm
    · rcases List.mem_cons.1 hc2 with heq | hc3
      · exact hsc.2 heq.symm
      · cases hc3
  obtain ⟨z, zs, hrev, hz⟩ := tokens_reverse_head ts v s htshape hsc.1
  have hflat := flat_tokens_eq [v, s] ts
  have happ : (([v, s] ++ ts.flatMap (fun u => ' ' :: u)) ++ [' ']) ++ ['\n'] =
      ([v, s] ++ ts.flatMap (fun u => ' ' :: u)) ++ [' ', '\n'] := by simp
  have hws : ∀ ch ∈ [' ', '\n'], ch.isWhitespace = true := by decide
  have hH : [v, s] ++ ts.flatMap (fun u => ' ' :: u) =
      v :: (s :: ts.flatMap (fun u => ' ' :: u)) := rfl
  refine ⟨?_, pySplitSpace_tokens ts [v, s] htsp0 htsp, by
    rw [hH]; intro hc; cases hc⟩
  rw [hflat, happ, hH]
  exact pyStrip_token_row v (s :: ts.flatMap (fun u => ' ' :: u)) [' ', '\n']
    z zs hvc.1 hws hrev hz

/-- The 2-character token `str(value)+state` written for one cell. -/
def rowTok (b : Board) (r c : Int) : List Char :=
  valStr (b.cell (r, c)) ++ [stateChar b r c]

/-- The token list of one saved row. -/
def rowToks (b : Board) (r : Int) : List (List Char) :=
  (List.range b.columns.toNat).map (fun c => rowTok b r (Int.ofNat c))

theorem saveRow_flat (b : Board) (r : Int) :
    saveRow b r = (rowToks b r).flatMap (fun u => u ++ [' ']) ++ ['\n'] := by
  unfold saveRow rowToks
  rw [List.flatMap_map]
  have hfn : (fun c : Nat => rowTok b r (Int.ofNat c) ++ [' ']) =
      (fun c : Nat => valStr (b.cell (r, Int.ofNat c)) ++
        [stateChar b r (Int.ofNat c), ' ']) := by
    funext c
    simp [rowTok]
  rw [hfn]

theorem stateChar_mem (b : Board) (r c : Int) : stateChar b r c ∈ legalStates := by
  unfold stateChar
  by_cases h : (r, c) ∈ b.uncovered
  · rw [if_pos h]; decide
  · rw [if_neg h]; decide

theorem stateChar_eq_S_iff (b : Board) (r c : Int) :
    stateChar b r c = 'S' ↔ (r, c) ∈ b.uncovered := by
  unfold stateChar
  by_cases h : (r, c) ∈ b.uncovered
  · rw [if_pos h]
    exact ⟨fun _ => h, fun _ => rfl⟩
  · rw [if_neg h]
    exact ⟨fun hc => absurd hc (by decide), fun hm => absurd hm h⟩

theorem rowToks_legal (b : Board) (r : Int)
    (hval : ∀ c ∈ List.range b.columns.toNat, valOK (b.cell (r, Int.ofNat c)) = true) :
    ∀ u ∈ rowToks b r, ∃ v s, u = [v, s] ∧ v ∈ legalValues ∧ s ∈ legalStates := by
  intro u hu
  rw [rowToks] at hu
  obtain ⟨c, hc, rfl⟩ := List.mem_map.1 hu
  obtain ⟨ch, hch1, hch2, hch3⟩ := valOK_char _ (hval c hc)
  refine ⟨ch, stateChar b r (Int.ofNat c), ?_, hch2, stateChar_mem b r (Int.ofNat c)⟩
  rw [rowTok, hch1]
  rfl

theorem parseRow_save (b : Board) (r : Nat) :
    ∀ (n a : Nat) (acc : List ((Int × Int) × Cellval)) (unc : List (Int × Int)),
      (∀ c ∈ List.range' a n, valOK (b.cell (Int.ofNat r, Int.ofNat c)) = true) →
      parseRow r ((List.range' a n).map
          (fun c => rowTok b (Int.ofNat r) (Int.ofNat c))) a acc unc =
        .ok (acc ++ (List.range' a n).map
            (fun c => ((Int.ofNat r, Int.ofNat c), b.cell (Int.ofNat r, Int.ofNat c))),
          unc ++ ((List.range' a n).map
            (fun c => ((Int.ofNat r : Int), (Int.ofNat c : Int)))).filter
            (fun p => decide (p ∈ b.uncovered))) := by
  intro n
  induction n with
  | zero =>
    intro a acc unc _
    rw [show List.range' a 0 = [] from rfl]
    simp only [List.map_nil, List.filter_nil, List.append_nil]
    exact parseRow_nil r a acc unc
  | succ n ih =>
    intro a acc unc hv
    have hva : valOK (b.cell (Int.ofNat r, Int.ofNat a)) = true :=
      hv a (by rw [List.range'_succ]; exact List.mem_cons_self _ _)
    obtain ⟨ch, hch1, hch2, hch3⟩ := valOK_char _ hva
    have htok : rowTok b (Int.ofNat r) (Int.ofNat a) =
        [ch, stateChar b (Int.ofNat r) (Int.ofNat a)] := by
      rw [rowTok, hch1]
      rfl
    rw [List.range'_succ]
    simp only [List.map_cons]
    rw [htok, parseRow_cons2,
      if_neg (by
        push_neg
        exact ⟨hch2, stateChar_mem b (Int.ofNat r) (Int.ofNat a)⟩),
      hch3]
    have hrec := ih (a + 1)
      (acc ++ [((Int.ofNat r, Int.ofNat a), b.cell (Int.ofNat r, Int.ofNat a))])
      (if stateChar b (Int.ofNat r) (Int.ofNat a) = 'S' then
        unc ++ [(Int.ofNat r, Int.ofNat a)] else unc)
      (fun c hc => hv c (by rw [List.range'_succ]; exact List.mem_cons_of_mem _ hc))
    rw [hrec]
    have hacc : (acc ++ [((Int.ofNat r, Int.ofNat a),
        b.cell (Int.ofNat r, Int.ofNat a))]) ++ (List.range' (a + 1) n).map
          (fun c => ((Int.ofNat r, Int.ofNat c), b.cell (Int.ofNat r, Int.ofNat c))) =
        acc ++ ((Int.ofNat r, Int.ofNat a), b.cell (Int.ofNat r, Int.ofNat a)) ::
          (List.range' (a + 1) n).map
            (fun c => ((Int.ofNat r, Int.ofNat c), b.cell (Int.ofNat r, Int.ofNat c))) := by
      simp
    have huncl : (if stateChar b (Int.ofNat r) (Int.ofNat a) = 'S' then
          unc ++ [(Int.ofNat r, Int.ofNat a)] else unc) ++
          ((List.range' (a + 1) n).map
            (fun c => ((Int.ofNat r : Int), (Int.ofNat c : Int)))).filter
            (fun p => decide (p ∈ b.uncovered)) =
        unc ++ (((Int.ofNat r : Int), (Int.ofNat a : Int)) ::
          (List.range' (a + 1) n).map
            (fun c => ((Int.ofNat r : Int), (Int.ofNat c : Int)))).filter
          (fun p => decide (p ∈ b.uncovered)) := by
      rw [List.filter_cons]
      by_cases hmem : ((Int.ofNat r : Int), (Int.ofNat a : Int)) ∈ b.uncovered
      · rw [if_pos ((stateChar_eq_S_iff b _ _).2 hmem),
          if_pos (decide_eq_true hmem)]
        simp
      · rw [if_neg (fun hc => hmem ((stateChar_eq_S_iff b _ _).1 hc)),
          if_neg (fun hc => hmem (of_decide_eq_true hc))]
    rw [hacc, huncl]

theorem rowToks_length (b : Board) (r : Int) :
    (rowToks b r).length = b.columns.toNat := by
  rw [rowToks]
  simp

theorem strip_saveRow (b : Board) (r : Int) (h1c : 1 ≤ b.columns)
    (hval : ∀ c ∈ List.range b.columns.toNat, valOK (b.cell (r, Int.ofNat c)) = true) :
    pySplitSpace (pyStrip (saveRow b r)) = rowToks b r ∧
      pyStrip (saveRow b r) ≠ [] := by
  have hlegal := rowToks_legal b r hval
  obtain ⟨k, hk⟩ : ∃ k, b.columns.toNat = k + 1 := ⟨b.columns.toNat - 1, by omega⟩
  have hcons : rowToks b r = rowTok b r 0 ::
      (List.range' 1 k).map (fun c => rowTok b r (Int.ofNat c)) := by
    rw [rowToks, hk, List.range_eq_range', List.range'_succ]
    rw [List.map_cons]
    rfl
  rw [hcons] at hlegal
  obtain ⟨hstrip, hsplit, hne⟩ := row_tokens_roundtrip (rowTok b r 0)
    ((List.range' 1 k).map (fun c => rowTok b r (Int.ofNat c))) hlegal
  rw [saveRow_flat, hcons]
  rw [hstrip]
  exact ⟨by rw [hsplit, ← hcons], hne⟩

theorem parseRows_save (b : Board) (h1c : 1 ≤ b.columns) :
    ∀ (n a : Nat) (dimErr : Bool) (acc : List ((Int × Int) × Cellval))
      (unc : List (Int × Int)),
      (∀ r ∈ List.range' a n, ∀ c ∈ List.range b.columns.toNat,
        valOK (b.cell (Int.ofNat r, Int.ofNat c)) = true) →
      parseRows b.columns
          ((List.range' a n).map (fun r => pyStrip (saveRow b (Int.ofNat r))))
          a dimErr acc unc =
        .ok (dimErr,
          acc ++ (List.range' a n).flatMap (fun r => (List.range b.columns.toNat).map
            (fun c => ((Int.ofNat r, Int.ofNat c), b.cell (Int.ofNat r, Int.ofNat c)))),
          unc ++ ((List.range' a n).flatMap (fun r => (List.range b.columns.toNat).map
            (fun c => ((Int.ofNat r : Int), (Int.ofNat c : Int))))).filter
            (fun p => decide (p ∈ b.uncovered))) := by
  intro n
  induction n with
  | zero =>
    intro a dimErr acc unc _
    rw [show List.range' a 0 = [] from rfl]
    simp only [List.map_nil, List.flatMap_nil, List.filter_nil, List.append_nil]
    rfl
  | succ n ih =>
    intro a dimErr acc unc hv
    have hvr : ∀ c ∈ List.range b.columns.toNat,
        valOK (b.cell (Int.ofNat a, Int.ofNat c)) = true :=
      hv a (by rw [List.range'_succ]; exact List.mem_cons_self _ _)
    obtain ⟨hsplit, _⟩ := strip_saveRow b (Int.ofNat a) h1c hvr
    rw [List.range'_succ]
    simp only [List.map_cons, List.flatMap_cons]
    rw [parseRows_cons, hsplit]
    have htoks : rowToks b (Int.ofNat a) = (List.range' 0 b.columns.toNat).map
        (fun c => rowTok b (Int.ofNat a) (Int.ofNat c)) := by
      rw [rowToks, List.range_eq_range']
    have hrowrun := parseRow_save b a b.columns.toNat 0 acc unc
      (fun c hc => hvr c (by rwa [List.range_eq_range']))
    rw [htoks, hrowrun]
    dsimp only
    have hflag : (dimErr || decide (Int.ofNat (rowToks b (Int.ofNat a)).length ≠
        b.columns)) = dimErr := by
      rw [rowToks_length]
      have hco : Int.ofNat b.columns.toNat = b.columns := by
        rw [Int.ofNat_eq_coe]
        exact Int.toNat_of_nonneg (by omega)
      rw [hco]
      simp
    rw [← htoks, hflag]
    have hrec := ih (a + 1) dimErr
      (acc ++ (List.range' 0 b.columns.toNat).map
        (fun c => ((Int.ofNat a, Int.ofNat c), b.cell (Int.ofNat a, Int.ofNat c))))
      (unc ++ ((List.range' 0 b.columns.toNat).map
        (fun c => ((Int.ofNat a : Int), (Int.ofNat c : Int)))).filter
        (fun p => decide (p ∈ b.uncovered)))
      (fun r hr => hv r (by rw [List.range'_succ]; exact List.mem_cons_of_mem _ hr))
    rw [hrec]
    rw [← List.range_eq_range']
    simp [List.append_assoc, List.filter_append]

theorem lookup_map_self :
    ∀ (l : List (Int × Int)) (f : Int × Int → Cellval) (p : Int × Int), p ∈ l →
      (l.map (fun q => (q, f q))).lookup p = some (f p) := by
  intro l f p
  induction l with
  | nil => intro h; cases h
  | cons q l ih =>
    intro hp
    rw [List.map_cons, List.lookup_cons]
    by_cases hpq : p = q
    · subst hpq
      simp
    · have hbeq : (p == q) = false := beq_eq_false_iff_ne.mpr hpq
      rw [hbeq]
      exact ih (by
        rcases List.mem_cons.1 hp with h | h
        · exact absurd h hpq
        · exact h)

theorem cells_acc_eq (b : Board) :
    (List.range b.rows.toNat).flatMap (fun r => (List.range b.columns.toNat).map
      (fun c => ((Int.ofNat r, Int.ofNat c), b.cell (Int.ofNat r, Int.ofNat c)))) =
    (cellsList b.rows b.columns).map (fun q => (q, b.cell q)) := by
  rw [cellsList, List.map_flatMap]
  congr 1
  funext r
  rw [List.map_map]
  rfl

theorem cells_unc_eq (b : Board) :
    (List.range b.rows.toNat).flatMap (fun r => (List.range b.columns.toNat).map
      (fun c => ((Int.ofNat r : Int), (Int.ofNat c : Int)))) =
    cellsList b.rows b.columns := by
  rw [cellsList]

/-- C4. Round trip: saving a reachable board's body and loading it into a
fresh board of the same dimensions succeeds and reproduces the same
cell-value mapping on the whole grid and the same uncovered set. -/
theorem C4_save_load_roundtrip (b frb : Board)
    (hrows : frb.rows = b.rows) (hcols : frb.columns = b.columns)
    (h1r : 1 ≤ b.rows) (h1c : 1 ≤ b.columns)
    (hval : ∀ p ∈ cellsList b.rows b.columns, valOK (b.cell p) = true)
    (hunc : ∀ p ∈ b.uncovered, b.inBounds p = true) :
    ∃ b2, frb.load_board b.saveBody = .ok b2 ∧
      (∀ p ∈ cellsList b.rows b.columns, b2.cell p = b.cell p) ∧
      (∀ p, p ∈ b2.uncovered ↔ p ∈ b.uncovered) := by
  have hvalrc : ∀ r ∈ List.range b.rows.toNat, ∀ c ∈ List.range b.columns.toNat,
      valOK (b.cell (Int.ofNat r, Int.ofNat c)) = true := by
    intro r hr c hc
    apply hval
    rw [mem_cellsList]
    rw [List.mem_range] at hr hc
    refine ⟨?_, ?_, ?_, ?_⟩ <;> simp only [Int.ofNat_eq_coe] <;> omega
  have hper : ∀ r ∈ List.range b.rows.toNat,
      pySplitSpace (pyStrip (saveRow b (Int.ofNat r))) = rowToks b (Int.ofNat r) ∧
      pyStrip (saveRow b (Int.ofNat r)) ≠ [] :=
    fun r hr => strip_saveRow b (Int.ofNat r) h1c (hvalrc r hr)
  have hplines : processLines b.saveBody =
      (List.range b.rows.toNat).map (fun r => pyStrip (saveRow b (Int.ofNat r))) := by
    rw [processLines, Board.saveBody, List.map_map]
    rw [List.filter_eq_self.mpr]
    · rfl
    · intro x hx
      obtain ⟨r, hr, rfl⟩ := List.mem_map.1 hx
      simp only [Function.comp_apply, decide_eq_true_eq]
      exact (hper r hr).2
  have hlines_ne : processLines b.saveBody ≠ [] := by
    rw [hplines]
    intro hc
    have := congrArg List.length hc
    simp only [List.length_map, List.length_range, List.length_nil] at this
    omega
  have hlen0 : decide (Int.ofNat (processLines b.saveBody).length ≠ frb.rows) = false := by
    rw [hplines]
    simp only [List.length_map, List.length_range]
    have hro : Int.ofNat b.rows.toNat = b.rows := by
      rw [Int.ofNat_eq_coe]
      exact Int.toNat_of_nonneg (by omega)
    rw [hro, hrows]
    simp
  have hrun := parseRows_save b h1c b.rows.toNat 0 false [] []
    (by
      intro r hr c hc
      rw [← List.range_eq_range'] at hr
      exact hvalrc r hr c hc)
  unfold Board.load_board
  rw [if_neg hlines_ne, hlen0, hcols, hplines, List.range_eq_range', hrun]
  dsimp only
  rw [if_neg (by simp)]
  rw [← List.range_eq_range']
  simp only [List.nil_append]
  rw [cells_acc_eq, cells_unc_eq]
  refine ⟨_, rfl, ?_, ?_⟩
  · intro p hp
    show assocCell ((cellsList b.rows b.columns).map (fun q => (q, b.cell q))) p = b.cell p
    rw [assocCell, lookup_map_self (cellsList b.rows b.columns) b.cell p hp]
  · intro p
    show p ∈ (cellsList b.rows b.columns).filter (fun q => decide (q ∈ b.uncovered)) ↔
      p ∈ b.uncovered
    rw [List.mem_filter]
    constructor
    · rintro ⟨-, hmem⟩
      exact of_decide_eq_true hmem
    · intro hmem
      exact ⟨mem_cellsList_of_inBounds (hunc p hmem), decide_eq_true hmem⟩

theorem C4_witness :
    mk1x2.rows = bLose.rows ∧ mk1x2.columns = bLose.columns ∧
    (1 : Int) ≤ bLose.rows ∧ (1 : Int) ≤ bLose.columns ∧
    (∀ p ∈ cellsList bLose.rows bLose.columns, valOK (bLose.cell p) = true) ∧
    (∀ p ∈ bLose.uncovered, bLose.inBounds p = true) ∧
    (∃ b2, mk1x2.load_board bLose.saveBody = .ok b2 ∧
      (∀ p ∈ cellsList bLose.rows bLose.columns, b2.cell p = bLose.cell p) ∧
      (∀ p, p ∈ b2.uncovered ↔ p ∈ bLose.uncovered)) :=
  ⟨rfl, rfl, by decide, by decide, by decide, by decide,
    C4_save_load_roundtrip bLose mk1x2 rfl rfl (by decide) (by decide)
      (by decide) (by decide)⟩

end Minesweeper
